import Mathlib

/-!
Verification of the natural-language specification of the `python_topaz3`
repository against a shallow embedding of its Python source.

Conventions of the embedding:
* pandas dataframes and numpy 1-d arrays become Lean `List`s; positional
  slicing `df[a:b]` becomes `(l.drop a).take (b - a)`;
* numpy floating point values become `ℚ` (the claims under study concern
  index arithmetic and exact structure, not rounding);
* Python functions that can raise become `Option`/`Except` valued;
* `np.mean` over a list becomes `listMean = sum / length`.
-/

namespace Topaz3

/-- Arithmetic mean of a list of rationals (`np.mean`); `0` on the empty
list (numpy returns `nan` there, a case the claims never reach). -/
def listMean (l : List ℚ) : ℚ := l.sum / l.length

/-! ## `topaz3/training_models/training_pipeline.py` — fold slicing (C1)

Embedding of the statements

    active_training_set = pandas.concat(
        [training_data_shuffled[: fold_boundaries[k][0]],
         training_data_shuffled[fold_boundaries[k][1] :]])
    active_validation_set = training_data_shuffled[
        fold_boundaries[k][0] : fold_boundaries[k][1]]

`training_data_shuffled` is an arbitrary list of rows (its row type is left
abstract), `b0`/`b1` are the two components of `fold_boundaries[k]`. -/

/-- The active training set of cross-validation run `k`:
rows `0..b0-1` concatenated with rows `b1..n-1` of the shuffled dataframe. -/
def activeTrainingSet (shuffled : List α) (b0 b1 : ℕ) : List α :=
  shuffled.take b0 ++ shuffled.drop b1

/-- The active validation set of cross-validation run `k`:
rows `b0..b1-1` of the shuffled dataframe. -/
def activeValidationSet (shuffled : List α) (b0 b1 : ℕ) : List α :=
  (shuffled.drop b0).take (b1 - b0)

/-! ## `dls_topaz3/training_models/evaluate_model.py` — per-structure
aggregation (C2)

Embedding of

    predictions_structure_avg = np.array(
        [(np.mean(predictions[60 * i : 60 * i + 60, 0]),
          np.mean(predictions[60 * i : 60 * i + 60, 1]))
         for i in range(int(len(predictions) / 60))])
    predictions_struct_avg_flat = [
        int(pred > 0.5) for pred in predictions_structure_avg[:, 1]]

A prediction row is a pair (column 0, column 1). -/

/-- One block of 60 consecutive per-slice predictions:
`predictions[60*i : 60*i + 60]`. -/
def structureBlock (predictions : List (ℚ × ℚ)) (i : ℕ) : List (ℚ × ℚ) :=
  (predictions.drop (60 * i)).take 60

/-- `predictions_structure_avg`: per-structure column means over blocks of
60 slices, one entry per complete block. -/
def predictionsStructureAvg (predictions : List (ℚ × ℚ)) : List (ℚ × ℚ) :=
  (List.range (predictions.length / 60)).map (fun i =>
    (listMean ((structureBlock predictions i).map Prod.fst),
     listMean ((structureBlock predictions i).map Prod.snd)))

/-- `predictions_struct_avg_flat`: `int(pred > 0.5)` on the column-1
average of each structure. -/
def predictionsStructAvgFlat (predictions : List (ℚ × ℚ)) : List ℕ :=
  (predictionsStructureAvg predictions).map (fun pred =>
    if 1/2 < pred.2 then 1 else 0)

/-! ## `topaz3/training_models/data_generator.py` — batched loader (C3)

`DataGenerator` keeps dictionaries `list_IDs` (sample files) and `labels`
keyed by `0..n-1`, a `batch_size`, `n_classes` and the epoch's index
permutation `indexes` (`np.arange(n)`, shuffled by `on_epoch_end`).
Dictionaries keyed by `0..n-1` are embedded as lists; the lookup
`self.labels[k]` becomes `List.getD k 0` (the `KeyError` case never
arises because every served `k` comes from the permutation of `0..n-1`). -/

structure DataGenerator where
  list_IDs : List String
  labels : List ℕ
  batch_size : ℕ
  n_classes : ℕ
  indexes : List ℕ

/-- `__len__`: `int(np.floor(n / batch_size))` batches per epoch. -/
def DataGenerator.numBatches (g : DataGenerator) : ℕ :=
  g.list_IDs.length / g.batch_size

/-- The index slice of batch `index`:
`self.indexes[index*batch_size:(index+1)*batch_size]`
(a slice `[a:b]` keeps `b - a` elements, here `batch_size` of them). -/
def DataGenerator.batchIndexes (g : DataGenerator) (index : ℕ) : List ℕ :=
  (g.indexes.drop (index * g.batch_size)).take
    ((index + 1) * g.batch_size - index * g.batch_size)

/-- `keras.utils.to_categorical(y, num_classes)`: one-hot row of length
`num_classes` with the `1` at position `y`. -/
def toCategorical (y numClasses : ℕ) : List ℕ :=
  (List.range numClasses).map (fun j => if j = y then 1 else 0)

/-- `list_labels_temp = [self.labels[k] for k in indexes]` for one batch. -/
def DataGenerator.batchLabelIDs (g : DataGenerator) (index : ℕ) : List ℕ :=
  (g.batchIndexes index).map (fun k => g.labels.getD k 0)

/-- The one-hot label rows returned for one batch
(`keras.utils.to_categorical(y, num_classes=self.n_classes)`). -/
def DataGenerator.batchLabels (g : DataGenerator) (index : ℕ) : List (List ℕ) :=
  (g.batchLabelIDs index).map (fun y => toCategorical y g.n_classes)

/-! ## `dls_topaz3/maps_to_images.py` — `slice_map` (C4)

A 3-d numpy volume of shape `(d0, d1, d2)` is embedded as its dimensions
plus a value function `ℕ → ℕ → ℕ → ℚ` (only arguments below the
dimensions are ever read).  `slice_map` asserts the three dimensions are
equal (`Option.none` models the `AssertionError`), allocates
`np.zeros((slices_per_axis * 3, length, length))` — hence the planes are
`0` outside the `length × length` window — and copies one plane of the
volume per slice per axis.  numpy raises `IndexError` when a requested
plane index reaches the volume's extent, which `Option.none` also
models. -/

/-- Plane index of slice `i`: `(slice + 1) * int(length / (slices_per_axis + 1))`. -/
def sliceIndex (length slicesPerAxis i : ℕ) : ℕ :=
  (i + 1) * (length / (slicesPerAxis + 1))

/-- `slice_map(volume, slices_per_axis)`. -/
def slice_map (d0 d1 d2 : ℕ) (volume : ℕ → ℕ → ℕ → ℚ)
    (slicesPerAxis : ℕ) : Option (List (ℕ → ℕ → ℚ)) :=
  if d0 = d1 ∧ d1 = d2 then
    if ∀ i ∈ List.range slicesPerAxis, sliceIndex d0 slicesPerAxis i < d0 then
      some
        ((List.range slicesPerAxis).map (fun i y z =>
          if y < d0 ∧ z < d0 then
            volume (sliceIndex d0 slicesPerAxis i) y z else 0) ++
        (List.range slicesPerAxis).map (fun i x z =>
          if x < d0 ∧ z < d0 then
            volume x (sliceIndex d0 slicesPerAxis i) z else 0) ++
        (List.range slicesPerAxis).map (fun i x y =>
          if x < d0 ∧ y < d0 then
            volume x y (sliceIndex d0 slicesPerAxis i) else 0))
    else none
  else none

/-! ## `topaz3/predictions.py` — `map_to_images` (C10) and
`predict_original_inverse` (C5)

`map_to_images` slices a map volume, asserts the slices are 201×201, and
rescales each slice in place by `(slice - slice.min()) / (slice.max() -
slice.min())`.  The zero denominator (`slice.max() == slice.min()`) is the
division-by-zero case, modelled as `Option.none` by `scaleSlice`.  The
trained Keras model is an opaque per-image function `α → ℚ × ℚ`;
`model.predict` applies it to each image of the batch. -/

/-- All values of a `length × length` slice, row by row. -/
def planeValues (length : ℕ) (p : ℕ → ℕ → ℚ) : List ℚ :=
  (List.range length).bind (fun y => (List.range length).map (fun z => p y z))

/-- `slice.min()` (numpy reduces over all entries; `0` for the empty
slice, which numpy rejects and the claims never reach). -/
def planeMin (length : ℕ) (p : ℕ → ℕ → ℚ) : ℚ :=
  match planeValues length p with
  | [] => 0
  | v :: vs => vs.foldl min v

/-- `slice.max()`. -/
def planeMax (length : ℕ) (p : ℕ → ℕ → ℚ) : ℚ :=
  match planeValues length p with
  | [] => 0
  | v :: vs => vs.foldl max v

/-- `(slice - slice.min()) / (slice.max() - slice.min())`, `none` when the
denominator vanishes. -/
def scaleSlice (length : ℕ) (p : ℕ → ℕ → ℚ) : Option (ℕ → ℕ → ℚ) :=
  if planeMax length p = planeMin length p then none
  else some (fun y z =>
    (p y z - planeMin length p) / (planeMax length p - planeMin length p))

/-- The `for slice_num in range(...)` scaling loop of `map_to_images`. -/
def scaleStack (length : ℕ) : List (ℕ → ℕ → ℚ) → Option (List (ℕ → ℕ → ℚ))
  | [] => some []
  | p :: ps =>
    match scaleSlice length p, scaleStack length ps with
    | some q, some qs => some (q :: qs)
    | _, _ => none

/-- `map_to_images(map_file, slices_per_axis)` on the volume read from the
map file: slice, assert the 201×201 shape, scale each slice. -/
def map_to_images (d0 d1 d2 : ℕ) (volume : ℕ → ℕ → ℕ → ℚ)
    (slicesPerAxis : ℕ) : Option (List (ℕ → ℕ → ℚ)) :=
  (slice_map d0 d1 d2 volume slicesPerAxis).bind (fun stack =>
    if d0 = 201 then scaleStack 201 stack else none)

/-- `model.predict` on an image stack: the model applied to every image. -/
def predictions_from_images (f : α → ℚ × ℚ) (stack : List α) :
    List (ℚ × ℚ) :=
  stack.map f

/-- `predict_original_inverse`: concatenate the original stack before the
inverse stack, predict, split the predictions at `int(len/2)` into the
"Original" and "Inverse" raw halves, and average each half per class.
Returns `((raw Original, raw Inverse), (avg Original, avg Inverse))`. -/
def predict_original_inverse (f : α → ℚ × ℚ)
    (originalImageStack inverseImageStack : List α) :
    (List (ℚ × ℚ) × List (ℚ × ℚ)) × ((ℚ × ℚ) × (ℚ × ℚ)) :=
  let predictions :=
    predictions_from_images f (originalImageStack ++ inverseImageStack)
  let rawOriginal := predictions.take (predictions.length / 2)
  let rawInverse := predictions.drop (predictions.length / 2)
  ((rawOriginal, rawInverse),
    ((listMean (rawOriginal.map Prod.fst), listMean (rawOriginal.map Prod.snd)),
     (listMean (rawInverse.map Prod.fst), listMean (rawInverse.map Prod.snd))))

/-! ## `dls_topaz3/database_ops.py` — `prepare_labels_database` (C7)

A row of the `ai_training` table (its `Name` column is declared `PRIMARY
KEY`, so names are pairwise distinct; SQLite enforces no length limit).
`prepare_labels_database` reads `ai_training`, builds one `(Name,
original_score)` record per row followed by one `(Name_i, inverse_score)`
record per row, sorts the concatenation by name (`set_index("Name")
.sort_index()`), drops any pre-existing `ai_labels` table, and writes the
sorted rows as the new `ai_labels`. -/

structure TrainingRow where
  name : String
  original_cc : ℚ
  inverse_cc : ℚ
  original_score : ℤ
  inverse_score : ℤ

/-- `sorted_data_original`: the `(Name, original_score)` records. -/
def labelRowsOriginal (rows : List TrainingRow) : List (String × ℤ) :=
  rows.map (fun r => (r.name, r.original_score))

/-- `sorted_data_inverse`: the `(Name_i, inverse_score)` records. -/
def labelRowsInverse (rows : List TrainingRow) : List (String × ℤ) :=
  rows.map (fun r => (r.name ++ "_i", r.inverse_score))

/-- The new `ai_labels` contents: both record families sorted by name. -/
def prepare_labels (rows : List TrainingRow) : List (String × ℤ) :=
  List.insertionSort (fun a b => a.1 ≤ b.1)
    (labelRowsOriginal rows ++ labelRowsInverse rows)

/-- The table-level effect: whatever `ai_labels` held before
(`DROP TABLE IF EXISTS ai_labels`), afterwards it holds exactly the
freshly sorted rows. -/
def runPrepareLabelsDatabase (previousLabels : Option (List (String × ℤ)))
    (rows : List TrainingRow) : Option (List (String × ℤ)) :=
  some (prepare_labels rows)

/-- C7 exactly as claimed: every training row named `N` owns exactly one
label row named `N` (its original score) and exactly one named `N_i` (its
inverse score); `2*n` rows in total, sorted by name. -/
def labelsClaim (rows : List TrainingRow) : Prop :=
  (∀ r ∈ rows,
    (prepare_labels rows).countP (fun x => x.1 == r.name) = 1 ∧
    (r.name, r.original_score) ∈ prepare_labels rows ∧
    (prepare_labels rows).countP (fun x => x.1 == r.name ++ "_i") = 1 ∧
    (r.name ++ "_i", r.inverse_score) ∈ prepare_labels rows) ∧
  (prepare_labels rows).length = 2 * rows.length ∧
  (prepare_labels rows).Pairwise (fun a b => a.1 ≤ b.1)

/-! ## `topaz3/train_test_split.py` — `test_split` (C9)

The `random` module's hidden Mersenne Twister state is modelled as an
abstract deterministic stream seeded by a natural number: `random.seed(9)`
resets it to the fixed state `9`, and each draw advances it
deterministically.  `random.sample(population, k)` draws `k` elements
without replacement (one in-range index per step, removing the chosen
element), raising `ValueError` when `k` exceeds the population size.  The
properties at issue — determinism under the constant reseed, absence of
replacement, and the sample size — hold for every deterministic stream,
so the particular stream update is immaterial to the claims.

`int(len(file_list) * (split_percent / 100))` truncates toward zero
(`pyInt`).  The `assert 0 <= split_percent <= 100` sits inside a
`try/except AssertionError` block whose handler only logs, so it never
stops execution; the `assert split_num > 0` is unguarded and does. -/

/-- One without-replacement sampling pass: at each of `k` steps pick an
in-range position from the stream, serve that element and remove it. -/
def sampleAux : ℕ → List α → ℕ → List α
  | _, _, 0 => []
  | _, [], _ + 1 => []
  | st, a :: t, k + 1 =>
    (a :: t).get ⟨st % (a :: t).length, Nat.mod_lt _ (Nat.succ_pos _)⟩ ::
      sampleAux (st / 2 + 1) ((a :: t).eraseIdx (st % (a :: t).length)) k

/-- `random.sample(population, k)`: `ValueError` when `k` exceeds the
population size. -/
def randomSample (st : ℕ) (pool : List α) (k : ℕ) : Option (List α) :=
  if k ≤ pool.length then some (sampleAux st pool k) else none

/-- Python `int()` on a rational: truncation toward zero. -/
def pyInt (q : ℚ) : ℤ := if 0 ≤ q then ⌊q⌋ else -⌊-q⌋

/-- `test_split(file_list, split_percent)`; the first argument is the
ambient PRNG state, discarded by the `random.seed(9)` reseed. -/
def test_split (ambient : ℕ) (file_list : List α)
    (split_percent : ℚ) : Option (List α) :=
  let split_num : ℤ := pyInt ((file_list.length : ℚ) * (split_percent / 100))
  if split_num ≤ 0 then none
  else randomSample 9 file_list split_num.toNat

/-! ## `topaz3/space_group.py` — `find_space_group` (C6)

Text is embedded as `List Char`.  `re.findall("(?<=[sS]pace [gG]roup)(.*)",
text)` is a left-to-right scan: at each position whose preceding 11
characters spell the phrase (either initial in either case), the rest of
the line is captured (`.` never crosses a newline, and the phrase holds no
newline either, so the scan then continues at that line's end; at most the
first phrase occurrence per line captures).  `findPhraseRemainders`
performs that scan.  `"\n".join(...)` is `joinLines`, and
`re.findall("[A-Z][ 0-9]+", ...)` is the greedy scan `findGroups`.

For the specification side, `splitLines`/`firstRemainder` read the same
text line by line as the claim phrases it. -/

/-- `[A-Z]`. -/
def isUpperAZ (c : Char) : Bool :=
  decide ('A' ≤ c) && decide (c ≤ 'Z')

/-- `[ 0-9]`. -/
def isGroupChar (c : Char) : Bool :=
  c == ' ' || (decide ('0' ≤ c) && decide (c ≤ '9'))

/-- Whether a list opens with a `[ 0-9]` character. -/
def headIsGroupChar : List Char → Bool
  | [] => false
  | d :: _ => isGroupChar d

/-- The text starts with `[sS]pace [gG]roup`. -/
def phraseSpaceGroupP (l : List Char) : Prop :=
  l.take 11 = ['s', 'p', 'a', 'c', 'e', ' ', 'g', 'r', 'o', 'u', 'p'] ∨
  l.take 11 = ['s', 'p', 'a', 'c', 'e', ' ', 'G', 'r', 'o', 'u', 'p'] ∨
  l.take 11 = ['S', 'p', 'a', 'c', 'e', ' ', 'g', 'r', 'o', 'u', 'p'] ∨
  l.take 11 = ['S', 'p', 'a', 'c', 'e', ' ', 'G', 'r', 'o', 'u', 'p']

instance (l : List Char) : Decidable (phraseSpaceGroupP l) := by
  rw [phraseSpaceGroupP]
  infer_instance

/-- The scan behind `re.findall("(?<=[sS]pace [gG]roup)(.*)", text)`:
capture the remainder of the line after each first-per-line phrase
occurrence. -/
def findPhraseRemainders (l : List Char) : List (List Char) :=
  match l with
  | [] => []
  | c :: rest =>
    if phraseSpaceGroupP (c :: rest) then
      ((c :: rest).drop 11).takeWhile (fun ch => ch != '\n') ::
        findPhraseRemainders
          (((c :: rest).drop 11).dropWhile (fun ch => ch != '\n'))
    else
      findPhraseRemainders rest
termination_by l.length
decreasing_by
  · refine Nat.lt_of_le_of_lt
      (List.Sublist.length_le (List.dropWhile_sublist _)) ?_
    simp only [List.length_drop, List.length_cons]
    omega
  · simp

/-- The greedy scan behind `re.findall("[A-Z][ 0-9]+", text)`. -/
def findGroups (l : List Char) : List (List Char) :=
  match l with
  | [] => []
  | c :: rest =>
    if isUpperAZ c && headIsGroupChar rest then
      (c :: rest.takeWhile isGroupChar) ::
        findGroups (rest.dropWhile isGroupChar)
    else
      findGroups rest
termination_by l.length
decreasing_by
  · simp only [List.length_cons]
    exact Nat.lt_succ_of_le (List.Sublist.length_le (List.dropWhile_sublist _))
  · simp

/-- `"\n".join(lines)`. -/
def joinLines : List (List Char) → List Char
  | [] => []
  | [r] => r
  | r :: rs => r ++ '\n' :: joinLines rs

/-- `group.replace(" ", "")`. -/
def removeSpaces (l : List Char) : List Char := l.filter (fun c => c != ' ')

/-- `find_space_group(text)`: scan for phrase remainders, join them with
newlines, scan for space-group shaped substrings, strip spaces, return
the first; raise (`Except.error`) when none exists. -/
def find_space_group (text : List Char) : Except Unit (List Char) :=
  let potential_lines := findPhraseRemainders text
  let joined := joinLines potential_lines
  let potential_groups := findGroups joined
  let space_groups := potential_groups.map removeSpaces
  match space_groups with
  | [] => Except.error ()
  | g :: _ => Except.ok g

/-- The lines of the text (boundaries at each newline; like
`str.split("\\n")`, the empty text has the single empty line). -/
def splitLines : List Char → List (List Char)
  | [] => [[]]
  | c :: rest =>
    if c = '\n' then [] :: splitLines rest
    else
      match splitLines rest with
      | [] => [[c]]
      | line :: more => (c :: line) :: more

/-- The remainder of one line after its first phrase occurrence, when the
line holds one. -/
def firstRemainder (l : List Char) : Option (List Char) :=
  match l with
  | [] => none
  | _ :: rest =>
    if phraseSpaceGroupP l then some (l.drop 11) else firstRemainder rest

/-- Specification side of C6: the line remainders that follow a phrase
occurrence, read line by line. -/
def specLineRemainders (text : List Char) : List (List Char) :=
  (splitLines text).filterMap firstRemainder

/-- Specification side of C6: all space-group shaped substrings of those
line remainders, in text order. -/
def specCandidates (text : List Char) : List (List Char) :=
  ((specLineRemainders text).map findGroups).join

/-! ## `dls_topaz3/get_cc.py` — `get_cc` (C8)

`get_cc` opens the file (a missing file raises), then takes
`re.findall("(?<=with CC)[ ]+[0-9]+.[0-9]+", text)[0]`, strips spaces and
feeds it to `float()`.  Both the empty-findall `IndexError` and a
`float()` `ValueError` are swallowed by an `except` that only logs — after
which `return cc` raises `NameError` (`cc` was never bound), so every
failure path raises; `Except.error` models all of them.

The greedy first match of `[ ]+[0-9]+.[0-9]+` after an occurrence of
`with CC` is computed by `tryMatchCC`/`firstCC`: maximal run of spaces,
maximal run of digits `d1`, then either any non-newline character followed
by at least one digit (the wildcard `.` taken after all of `d1`), or —
when that fails and `d1` has at least 3 digits — the wildcard backtracks
inside `d1` and the match is just the spaces and `d1`.  `parsePyFloat`
models Python `float()` on the strings this can produce (ASCII digit runs
around one joker character; after space stripping these are digit runs
possibly split by one of `.`, `e`, `E`, `_`).

The specification side `claimFirstCC` reads the claim's pattern —
`with CC`, spaces, then a decimal number `digits.digits` — and returns
the first such number in the text. -/

/-- `[0-9]`. -/
def isDigitCh (c : Char) : Bool :=
  decide ('0' ≤ c) && decide (c ≤ '9')

/-- Whether a list opens with a digit. -/
def headIsDigit : List Char → Bool
  | [] => false
  | d :: _ => isDigitCh d

/-- Numeric value of one digit character. -/
def digitVal (c : Char) : ℕ := c.toNat - 48

/-- Value of a digit run read in base 10. -/
def natOfDigits (l : List Char) : ℕ :=
  l.foldl (fun acc c => acc * 10 + digitVal c) 0

/-- The text starts with `with CC`. -/
def phraseWithCC (l : List Char) : Prop :=
  l.take 7 = ['w', 'i', 't', 'h', ' ', 'C', 'C']

instance (l : List Char) : Decidable (phraseWithCC l) := by
  rw [phraseWithCC]
  infer_instance

/-- The leading run of spaces (greedy `[ ]+`). -/
def ccSpaces (l : List Char) : List Char := l.takeWhile (fun c => c == ' ')

/-- The text after the leading spaces. -/
def ccAfterSpaces (l : List Char) : List Char := l.drop (ccSpaces l).length

/-- The digit run after the spaces (greedy first `[0-9]+`). -/
def ccDigits1 (l : List Char) : List Char :=
  (ccAfterSpaces l).takeWhile isDigitCh

/-- The text after that digit run. -/
def ccAfterDigits (l : List Char) : List Char :=
  (ccAfterSpaces l).drop (ccDigits1 l).length

/-- Greedy match of `[ ]+[0-9]+.[0-9]+` at the start of the text, if any:
spaces, digits, then either a non-newline wildcard character followed by
at least one digit, or — when that fails and the digit run holds at least
3 digits — the wildcard backtracks inside the digit run and the match is
the spaces and digits alone. -/
def tryMatchCC (l : List Char) : Option (List Char) :=
  if ccSpaces l = [] then none
  else if ccDigits1 l = [] then none
  else
    match ccAfterDigits l with
    | [] =>
      if 3 ≤ (ccDigits1 l).length then some (ccSpaces l ++ ccDigits1 l)
      else none
    | c :: r2 =>
      if c ≠ '\n' ∧ headIsDigit r2 = true then
        some (ccSpaces l ++ ccDigits1 l ++ c :: r2.takeWhile isDigitCh)
      else if 3 ≤ (ccDigits1 l).length then
        some (ccSpaces l ++ ccDigits1 l)
      else none

/-- First match of the full pattern
`(?<=with CC)[ ]+[0-9]+.[0-9]+` in the text. -/
def firstCC (l : List Char) : Option (List Char) :=
  match l with
  | [] => none
  | _ :: rest =>
    if phraseWithCC l then
      match tryMatchCC (l.drop 7) with
      | some m => some m
      | none => firstCC rest
    else firstCC rest

/-- Python `float()` on the strings reachable here: a digit run, or two
digit runs split by `.` (decimal), `e`/`E` (exponent) or `_` (digit
group separator); anything else fails. -/
def parsePyFloat (l : List Char) : Option ℚ :=
  let d1 := l.takeWhile isDigitCh
  if d1 = [] then none
  else
    match l.drop d1.length with
    | [] => some (natOfDigits d1)
    | c :: d2 =>
      if d2 = [] ∨ ¬ d2.all isDigitCh then none
      else if c = '.' then
        some ((natOfDigits d1 : ℚ) + natOfDigits d2 / 10 ^ d2.length)
      else if c = 'e' ∨ c = 'E' then
        some ((natOfDigits d1 : ℚ) * 10 ^ natOfDigits d2)
      else if c = '_' then some (natOfDigits (d1 ++ d2))
      else none

/-- `get_cc(filename)`: `none` stands for a missing file; every failure
path (missing file, empty findall, unparsable match) raises. -/
def get_cc (file : Option (List Char)) : Except Unit ℚ :=
  match file with
  | none => Except.error ()
  | some text =>
    match firstCC text with
    | none => Except.error ()
    | some m =>
      match parsePyFloat (removeSpaces m) with
      | none => Except.error ()
      | some q => Except.ok q

/-- Specification side of C8: strict match of spaces then a decimal
number `digits.digits` at the start of the text, with its value. -/
def tryMatchStrict (l : List Char) : Option ℚ :=
  if ccSpaces l = [] then none
  else if ccDigits1 l = [] then none
  else
    match ccAfterDigits l with
    | [] => none
    | c :: r2 =>
      if c = '.' then
        if r2.takeWhile isDigitCh = [] then none
        else some ((natOfDigits (ccDigits1 l) : ℚ)
          + natOfDigits (r2.takeWhile isDigitCh)
            / 10 ^ (r2.takeWhile isDigitCh).length)
      else none

/-- Specification side of C8: the first occurrence of `with CC` followed
by spaces and a decimal number, and that number's value. -/
def claimFirstCC (l : List Char) : Option ℚ :=
  match l with
  | [] => none
  | _ :: rest =>
    if phraseWithCC l then
      match tryMatchStrict (l.drop 7) with
      | some q => some q
      | none => claimFirstCC rest
    else claimFirstCC rest

/-- A regex match whose shape is spaces, then a decimal number
`digits.digits` with no internal spaces. -/
def IsStrictCC (m : List Char) : Prop :=
  ∃ sp d1 d2, m = sp ++ d1 ++ '.' :: d2 ∧
    sp ≠ [] ∧ (∀ c ∈ sp, c = ' ') ∧
    d1 ≠ [] ∧ (∀ c ∈ d1, isDigitCh c = true) ∧
    d2 ≠ [] ∧ (∀ c ∈ d2, isDigitCh c = true)

end Topaz3

namespace Topaz3

/-- C1: for fold boundaries `b0 ≤ b1 ≤ n` the validation set is exactly rows
`b0..b1-1` of the shuffled dataframe, the training set is exactly rows
`0..b0-1` followed by rows `b1..n-1`, together they are a permutation of all
`n` rows (each sample lands in exactly one of the two sets) and their sizes
sum to `n`. -/
theorem pipeline_fold_partition (shuffled : List α) (b0 b1 : ℕ)
    (h01 : b0 ≤ b1) (h1n : b1 ≤ shuffled.length) :
    ((activeValidationSet shuffled b0 b1).length = b1 - b0 ∧
      ∀ i, i < b1 - b0 →
        (activeValidationSet shuffled b0 b1).get? i = shuffled.get? (b0 + i)) ∧
    ((activeTrainingSet shuffled b0 b1).length = b0 + (shuffled.length - b1) ∧
      (∀ i, i < b0 →
        (activeTrainingSet shuffled b0 b1).get? i = shuffled.get? i) ∧
      ∀ i, i < shuffled.length - b1 →
        (activeTrainingSet shuffled b0 b1).get? (b0 + i) = shuffled.get? (b1 + i)) ∧
    (activeTrainingSet shuffled b0 b1 ++ activeValidationSet shuffled b0 b1).Perm
      shuffled ∧
    (activeTrainingSet shuffled b0 b1).length
      + (activeValidationSet shuffled b0 b1).length = shuffled.length := by
  have hb0n : b0 ≤ shuffled.length := le_trans h01 h1n
  have hvlen : (activeValidationSet shuffled b0 b1).length = b1 - b0 := by
    simp only [activeValidationSet, List.length_take, List.length_drop]
    omega
  have htlen : (activeTrainingSet shuffled b0 b1).length
      = b0 + (shuffled.length - b1) := by
    simp only [activeTrainingSet, List.length_append, List.length_take,
      List.length_drop]
    omega
  refine ⟨⟨hvlen, ?_⟩, ⟨htlen, ?_, ?_⟩, ?_, ?_⟩
  · intro i hi
    have hlt : b0 + i < shuffled.length := by omega
    simp only [activeValidationSet]
    rw [List.get?_take (by omega), List.get?_drop]
  · intro i hi
    simp only [activeTrainingSet]
    rw [List.get?_append (by simp [List.length_take]; omega),
      List.get?_take hi]
  · intro i hi
    simp only [activeTrainingSet]
    have hlen : (shuffled.take b0).length = b0 := by
      simp [List.length_take]; omega
    rw [List.get?_append_right (by omega)]
    rw [hlen]
    have : b0 + i - b0 = i := by omega
    rw [this, List.get?_drop]
  · -- training ++ validation is a permutation of the full dataframe
    have hsplit : shuffled.take b0 ++
        ((shuffled.drop b0).take (b1 - b0) ++ (shuffled.drop b0).drop (b1 - b0))
        = shuffled := by
      rw [List.take_append_drop, List.take_append_drop]
    have hdrop : (shuffled.drop b0).drop (b1 - b0) = shuffled.drop b1 := by
      rw [List.drop_drop]
      congr 1
      omega
    have hassoc : activeTrainingSet shuffled b0 b1
        ++ activeValidationSet shuffled b0 b1
        = shuffled.take b0
            ++ (shuffled.drop b1 ++ (shuffled.drop b0).take (b1 - b0)) := by
      simp [activeTrainingSet, activeValidationSet, List.append_assoc]
    rw [hassoc]
    have hperm : (shuffled.drop b1 ++ (shuffled.drop b0).take (b1 - b0)).Perm
        ((shuffled.drop b0).take (b1 - b0) ++ shuffled.drop b1) :=
      List.perm_append_comm
    refine (hperm.append_left (shuffled.take b0)).trans ?_
    rw [← hdrop, hsplit]
  · rw [hvlen, htlen]; omega

/-- Auxiliary: for `i` below the number of complete blocks, block `i`
covers exactly 60 rows. -/
theorem structureBlock_length (predictions : List (ℚ × ℚ)) (i : ℕ)
    (hi : i < predictions.length / 60) :
    (structureBlock predictions i).length = 60 := by
  have hmul : (predictions.length / 60) * 60 ≤ predictions.length :=
    Nat.div_mul_le_self _ _
  have hle : (i + 1) * 60 ≤ (predictions.length / 60) * 60 :=
    Nat.mul_le_mul_right _ hi
  simp only [structureBlock, List.length_take, List.length_drop]
  omega

/-- C2: `evaluate` aggregates per-slice predictions over consecutive blocks
of exactly 60: there are `⌊p/60⌋` structures; structure `i`'s average
prediction is the pair of column means over rows `60*i..60*i+59`; the
structure is classified as class 1 exactly when its column-1 average
exceeds `0.5`; and the per-slice predictions beyond the last complete
block contribute to no structure (the aggregation only depends on the
first `60*⌊p/60⌋` predictions). -/
theorem evaluate_structure_aggregation (predictions : List (ℚ × ℚ)) :
    (predictionsStructureAvg predictions).length = predictions.length / 60 ∧
    (∀ i, i < predictions.length / 60 →
      (structureBlock predictions i).length = 60 ∧
      (predictionsStructureAvg predictions).get? i =
        some (((structureBlock predictions i).map Prod.fst).sum / 60,
          ((structureBlock predictions i).map Prod.snd).sum / 60) ∧
      ((predictionsStructAvgFlat predictions).get? i = some 1 ↔
        1/2 < ((structureBlock predictions i).map Prod.snd).sum / 60) ∧
      ((predictionsStructAvgFlat predictions).get? i = some 0 ↔
        ¬ 1/2 < ((structureBlock predictions i).map Prod.snd).sum / 60)) ∧
    predictionsStructureAvg
        (predictions.take (60 * (predictions.length / 60)))
      = predictionsStructureAvg predictions := by
  have hmul : (predictions.length / 60) * 60 ≤ predictions.length :=
    Nat.div_mul_le_self _ _
  refine ⟨by simp [predictionsStructureAvg], ?_, ?_⟩
  · intro i hi
    have hblk := structureBlock_length predictions i hi
    have havg : (predictionsStructureAvg predictions).get? i =
        some (((structureBlock predictions i).map Prod.fst).sum / 60,
          ((structureBlock predictions i).map Prod.snd).sum / 60) := by
      simp only [predictionsStructureAvg, List.get?_map, List.get?_range hi,
        Option.map_some]
      simp [listMean, hblk]
    refine ⟨hblk, havg, ?_, ?_⟩
    · simp only [predictionsStructAvgFlat, List.get?_map, havg,
        Option.map_some]
      by_cases h : (1 : ℚ)/2 < ((structureBlock predictions i).map Prod.snd).sum / 60
      · simp [h]
      · simp [h]
    · simp only [predictionsStructAvgFlat, List.get?_map, havg,
        Option.map_some]
      by_cases h : (1 : ℚ)/2 < ((structureBlock predictions i).map Prod.snd).sum / 60
      · simp [h]
      · simp [h]
  · -- only the first 60 * ⌊p/60⌋ predictions feed the aggregation
    have hlen : (predictions.take (60 * (predictions.length / 60))).length
        = 60 * (predictions.length / 60) := by
      simp only [List.length_take]
      omega
    have hdiv : (predictions.take (60 * (predictions.length / 60))).length / 60
        = predictions.length / 60 := by
      rw [hlen, Nat.mul_div_cancel_left _ (by norm_num)]
    simp only [predictionsStructureAvg, hdiv]
    apply List.map_congr_left
    intro i hi
    have hi60 : i < predictions.length / 60 := List.mem_range.mp hi
    have hblock : structureBlock
        (predictions.take (60 * (predictions.length / 60))) i
        = structureBlock predictions i := by
      have hle : 60 * i + 60 ≤ 60 * (predictions.length / 60) := by
        have := Nat.mul_le_mul_left 60 (Nat.succ_le_of_lt hi60)
        omega
      simp only [structureBlock, List.drop_take]
      rw [List.take_take]
      congr 1
      omega
    rw [hblock]

/-- Witness for C2's inner bounded quantifier at a concrete list of 61
predictions (one complete block of 60 and one leftover slice). -/
theorem evaluate_structure_aggregation_witness :
    ((predictionsStructureAvg (List.replicate 60 ((0 : ℚ), (1 : ℚ)) ++ [(1, 0)])).length
        = (List.replicate 60 ((0 : ℚ), (1 : ℚ)) ++ [(1, 0)]).length / 60) ∧
    (structureBlock (List.replicate 60 ((0 : ℚ), (1 : ℚ)) ++ [(1, 0)]) 0).length = 60 := by
  have h := evaluate_structure_aggregation
    (List.replicate 60 ((0 : ℚ), (1 : ℚ)) ++ [(1, 0)])
  refine ⟨h.1, ?_⟩
  have h0 : 0 < (List.replicate 60 ((0 : ℚ), (1 : ℚ)) ++ [(1, 0)]).length / 60 := by
    simp
  exact (h.2.1 0 h0).1

/-- Witness for C1 at a concrete dataframe of 5 rows with boundaries
`(1, 3)`. -/
theorem pipeline_fold_partition_witness :
    (1 ≤ 3 ∧ 3 ≤ [10, 20, 30, 40, 50].length) ∧
    (((activeValidationSet [10, 20, 30, 40, 50] 1 3).length = 3 - 1 ∧
      ∀ i, i < 3 - 1 →
        (activeValidationSet [10, 20, 30, 40, 50] 1 3).get? i
          = [10, 20, 30, 40, 50].get? (1 + i)) ∧
    ((activeTrainingSet [10, 20, 30, 40, 50] 1 3).length
        = 1 + ([10, 20, 30, 40, 50].length - 3) ∧
      (∀ i, i < 1 →
        (activeTrainingSet [10, 20, 30, 40, 50] 1 3).get? i
          = [10, 20, 30, 40, 50].get? i) ∧
      ∀ i, i < [10, 20, 30, 40, 50].length - 3 →
        (activeTrainingSet [10, 20, 30, 40, 50] 1 3).get? (1 + i)
          = [10, 20, 30, 40, 50].get? (3 + i)) ∧
    (activeTrainingSet [10, 20, 30, 40, 50] 1 3
        ++ activeValidationSet [10, 20, 30, 40, 50] 1 3).Perm
      [10, 20, 30, 40, 50] ∧
    (activeTrainingSet [10, 20, 30, 40, 50] 1 3).length
      + (activeValidationSet [10, 20, 30, 40, 50] 1 3).length
      = [10, 20, 30, 40, 50].length) :=
  ⟨by decide,
    pipeline_fold_partition (α := ℕ) [10, 20, 30, 40, 50] 1 3
      (by decide) (by decide)⟩

/-- Auxiliary: a one-hot row decomposes into zeros, a single one, zeros. -/
theorem toCategorical_eq_replicate (y c : ℕ) (h : y < c) :
    toCategorical y c
      = List.replicate y 0 ++ 1 :: List.replicate (c - y - 1) 0 := by
  obtain ⟨k, rfl⟩ : ∃ k, c = y + (k + 1) := ⟨c - y - 1, by omega⟩
  rw [toCategorical, List.range_add, List.map_append]
  congr 1
  · refine List.eq_replicate.mpr ⟨by simp, ?_⟩
    intro b hb
    simp only [List.mem_map, List.mem_range] at hb
    obtain ⟨j, hj, rfl⟩ := hb
    simp [Nat.ne_of_lt hj]
  · rw [List.map_map, List.range_succ_eq_map, List.map_cons, List.map_map]
    congr 1
    · simp
    · refine List.eq_replicate.mpr ⟨by simp, ?_⟩
      intro b hb
      simp only [List.mem_map, List.mem_range, Function.comp_apply] at hb
      obtain ⟨j, hj, rfl⟩ := hb
      have hne : y + Nat.succ j ≠ y := by omega
      simp [hne]

/-- Auxiliary: counts of ones and zeros in a one-hot row. -/
theorem toCategorical_counts (y c : ℕ) (h : y < c) :
    (toCategorical y c).length = c ∧
    (toCategorical y c).count 1 = 1 ∧
    (toCategorical y c).count 0 = c - 1 := by
  rw [toCategorical_eq_replicate y c h]
  refine ⟨by simp; omega, ?_, ?_⟩
  · rw [List.count_append, List.count_cons]
    simp [List.count_replicate]
  · rw [List.count_append, List.count_cons]
    simp [List.count_replicate]
    omega

/-- Auxiliary: batch `i` sits inside the first `i*b + b` positions of the
index permutation. -/
theorem batchIndexes_subset_take (g : DataGenerator) (i : ℕ) :
    ∀ x ∈ g.batchIndexes i,
      x ∈ g.indexes.take (i * g.batch_size + g.batch_size) := by
  intro x hx
  have hslice : g.batchIndexes i
      = (g.indexes.take (i * g.batch_size + g.batch_size)).drop
          (i * g.batch_size) := by
    rw [DataGenerator.batchIndexes, List.drop_take]
    have hexp : (i + 1) * g.batch_size
        = i * g.batch_size + g.batch_size := by ring
    congr 1
    omega
  rw [hslice] at hx
  exact List.drop_subset _ _ hx

/-- Auxiliary: two distinct batches of one epoch share no sample
(the index permutation has no duplicates). -/
theorem batchIndexes_disjoint (g : DataGenerator)
    (hnd : g.indexes.Nodup) {i j : ℕ} (hij : i < j) :
    ∀ x ∈ g.batchIndexes i, x ∉ g.batchIndexes j := by
  intro x hxi hxj
  have hxtake := batchIndexes_subset_take g i x hxi
  have hxdrop : x ∈ g.indexes.drop (j * g.batch_size) :=
    List.take_subset _ _ hxj
  have hle : i * g.batch_size + g.batch_size ≤ j * g.batch_size := by
    have h1 : (i + 1) * g.batch_size ≤ j * g.batch_size :=
      Nat.mul_le_mul_right _ hij
    have h2 : (i + 1) * g.batch_size
        = i * g.batch_size + g.batch_size := by ring
    omega
  exact (List.disjoint_take_drop hnd hle) hxtake hxdrop

/-- C3: with `b ≤ n` samples per batch and the epoch's `indexes` a
permutation of `0..n-1`, the generator serves `⌊n/b⌋` batches; batch `i`
is exactly the `b` samples at positions `i*b..(i+1)*b-1` of the
permutation; distinct batches are disjoint; the `n mod b` indexes beyond
the last full batch are served in no batch; and each served label is
returned one-hot encoded over `n_classes`. -/
theorem data_generator_batches (g : DataGenerator)
    (hb : 0 < g.batch_size)
    (hbn : g.batch_size ≤ g.list_IDs.length)
    (hperm : g.indexes.Perm (List.range g.list_IDs.length))
    (hlab : g.labels.length = g.list_IDs.length)
    (hcls : ∀ y ∈ g.labels, y < g.n_classes) :
    g.numBatches = g.list_IDs.length / g.batch_size ∧
    (∀ i, i < g.numBatches →
      (g.batchIndexes i).length = g.batch_size ∧
      ∀ j, j < g.batch_size →
        (g.batchIndexes i).get? j = g.indexes.get? (i * g.batch_size + j)) ∧
    (∀ i j, i < g.numBatches → j < g.numBatches → i ≠ j →
      ∀ x ∈ g.batchIndexes i, x ∉ g.batchIndexes j) ∧
    ((g.indexes.drop (g.batch_size * g.numBatches)).length
        = g.list_IDs.length % g.batch_size ∧
      ∀ x ∈ g.indexes.drop (g.batch_size * g.numBatches),
        ∀ i, i < g.numBatches → x ∉ g.batchIndexes i) ∧
    (∀ i, i < g.numBatches →
      ∀ v ∈ g.batchLabels i, ∃ y, y < g.n_classes ∧
        v = toCategorical y g.n_classes ∧
        v.length = g.n_classes ∧ v.count 1 = 1 ∧
        v.count 0 = g.n_classes - 1) := by
  have hlen : g.indexes.length = g.list_IDs.length := by
    rw [hperm.length_eq, List.length_range]
  have hnd : g.indexes.Nodup := hperm.nodup_iff.mpr (List.nodup_range _)
  have hdivmul : g.batch_size * (g.list_IDs.length / g.batch_size)
      ≤ g.list_IDs.length := Nat.mul_div_le _ _
  refine ⟨rfl, ?_, ?_, ⟨?_, ?_⟩, ?_⟩
  · intro i hi
    have hi1 : (i + 1) * g.batch_size
        ≤ (g.list_IDs.length / g.batch_size) * g.batch_size :=
      Nat.mul_le_mul_right _ hi
    have hexp : (i + 1) * g.batch_size
        = i * g.batch_size + g.batch_size := by ring
    have hfit : i * g.batch_size + g.batch_size ≤ g.indexes.length := by
      rw [hlen]
      have := Nat.div_mul_le_self g.list_IDs.length g.batch_size
      omega
    constructor
    · simp only [DataGenerator.batchIndexes, List.length_take,
        List.length_drop]
      omega
    · intro j hj
      simp only [DataGenerator.batchIndexes]
      rw [List.get?_take (by omega), List.get?_drop]
  · intro i j hi hj hne x hx
    rcases Nat.lt_or_ge i j with hij | hij
    · exact batchIndexes_disjoint g hnd hij x hx
    · have hji : j < i := by omega
      intro hxj
      exact batchIndexes_disjoint g hnd hji x hxj hx
  · rw [List.length_drop, hlen, DataGenerator.numBatches]
    have := Nat.div_add_mod g.list_IDs.length g.batch_size
    omega
  · intro x hx i hi hxi
    have hxtake := batchIndexes_subset_take g i x hxi
    have hle : i * g.batch_size + g.batch_size
        ≤ g.batch_size * g.numBatches := by
      have h1 : (i + 1) * g.batch_size ≤ g.numBatches * g.batch_size :=
        Nat.mul_le_mul_right _ hi
      have h2 : (i + 1) * g.batch_size
          = i * g.batch_size + g.batch_size := by ring
      have hcomm : g.numBatches * g.batch_size
          = g.batch_size * g.numBatches := Nat.mul_comm _ _
      omega
    exact (List.disjoint_take_drop hnd hle) hxtake hx
  · intro i hi v hv
    simp only [DataGenerator.batchLabels, DataGenerator.batchLabelIDs,
      List.map_map, List.mem_map, Function.comp_apply] at hv
    obtain ⟨k, hk, rfl⟩ := hv
    have hkmem : k ∈ g.indexes := by
      have := batchIndexes_subset_take g i k hk
      exact List.take_subset _ _ this
    have hkn : k < g.list_IDs.length := by
      have := hperm.mem_iff.mp hkmem
      exact List.mem_range.mp this
    have hklab : k < g.labels.length := by omega
    have hydef : g.labels.getD k 0 ∈ g.labels := by
      rw [List.getD_eq_getElem _ _ hklab]
      exact List.getElem_mem _
    have hy : g.labels.getD k 0 < g.n_classes := hcls _ hydef
    obtain ⟨hc1, hc2, hc3⟩ := toCategorical_counts (g.labels.getD k 0)
      g.n_classes hy
    exact ⟨g.labels.getD k 0, hy, rfl, hc1, hc2, hc3⟩

/-- Witness for C3 at a concrete five-sample generator with batch size 2
and a shuffled index permutation. -/
theorem data_generator_batches_witness :
    (DataGenerator.mk ["a", "b", "c", "d", "e"] [0, 1, 0, 1, 1] 2 2
        [4, 2, 0, 3, 1]).numBatches
      = (5 : ℕ) / 2 ∧
    ((DataGenerator.mk ["a", "b", "c", "d", "e"] [0, 1, 0, 1, 1] 2 2
        [4, 2, 0, 3, 1]).batchIndexes 0).length = 2 := by
  have h := data_generator_batches
    (DataGenerator.mk ["a", "b", "c", "d", "e"] [0, 1, 0, 1, 1] 2 2
      [4, 2, 0, 3, 1])
    (by decide) (by decide) (by decide) (by decide) (by decide)
  refine ⟨h.1, (h.2.1 0 (by decide)).1⟩

/-- Auxiliary: every requested plane index stays below a positive side
length: `(i + 1) * ⌊L/(s+1)⌋ < L` for `i < s`. -/
theorem sliceIndex_lt (L s i : ℕ) (hL : 0 < L) (hi : i < s) :
    sliceIndex L s i < L := by
  have hq : (L / (s + 1)) * (s + 1) ≤ L := Nat.div_mul_le_self _ _
  have h1 : (i + 1) * (L / (s + 1)) ≤ s * (L / (s + 1)) :=
    Nat.mul_le_mul_right _ (by omega)
  have h2 : (L / (s + 1)) * (s + 1)
      = s * (L / (s + 1)) + L / (s + 1) := by ring
  rcases Nat.eq_zero_or_pos (L / (s + 1)) with h0 | h0
  · simp only [sliceIndex, h0, Nat.mul_zero]
    exact hL
  · rw [sliceIndex]
    omega

/-- Auxiliary: on a positive cube `slice_map` succeeds and returns the
three axis families of plane copies. -/
theorem slice_map_cube_eq (L s : ℕ) (v : ℕ → ℕ → ℕ → ℚ)
    (hL : 0 < L) :
    slice_map L L L v s = some
      ((List.range s).map (fun i y z =>
        if y < L ∧ z < L then v (sliceIndex L s i) y z else 0) ++
      (List.range s).map (fun i x z =>
        if x < L ∧ z < L then v x (sliceIndex L s i) z else 0) ++
      (List.range s).map (fun i x y =>
        if x < L ∧ y < L then v x y (sliceIndex L s i) else 0)) := by
  rw [slice_map, if_pos ⟨rfl, rfl⟩, if_pos]
  intro i hi
  exact sliceIndex_lt L s i hL (List.mem_range.mp hi)

/-- Counterexample to C4 as stated: the degenerate cube of side `0` with
one slice per axis has all three dimensions equal and a positive
`slices_per_axis`, yet `slice_map` does not return an image stack (numpy
raises `IndexError` assigning `volume[0, :, :]` of an empty volume). -/
theorem slice_map_empty_cube_counterexample :
    ((0 : ℕ) = 0 ∧ (0 : ℕ) = 0) ∧ 0 < 1 ∧
      slice_map 0 0 0 (fun _ _ _ => (0 : ℚ)) 1 = none := by
  refine ⟨⟨rfl, rfl⟩, Nat.one_pos, ?_⟩
  rw [slice_map, if_pos ⟨rfl, rfl⟩, if_neg]
  intro hall
  exact absurd (hall 0 (by decide)) (by decide)

/-- C4 (amended: the common side length must be positive): for every cube
volume of positive side `L` and positive `slices_per_axis`, `slice_map`
returns a stack of `3*s` planes of extent `L × L`; entry `i` agrees with
`volume[(i+1)*⌊L/(s+1)⌋, :, :]`, entry `s+i` with
`volume[:, (i+1)*⌊L/(s+1)⌋, :]` and entry `2*s+i` with
`volume[:, :, (i+1)*⌊L/(s+1)⌋]`; and on a volume whose three dimensions
are not all equal `slice_map` fails with an assertion error. -/
theorem slice_map_spec (L s : ℕ) (v : ℕ → ℕ → ℕ → ℚ)
    (hL : 0 < L) (hs : 0 < s) :
    (∃ stack, slice_map L L L v s = some stack ∧
      stack.length = 3 * s ∧
      ∀ i, i < s →
        (∃ p, stack.get? i = some p ∧
          (∀ y z, y < L → z < L → p y z = v (sliceIndex L s i) y z) ∧
          ∀ y z, ¬ (y < L ∧ z < L) → p y z = 0) ∧
        (∃ p, stack.get? (s + i) = some p ∧
          (∀ x z, x < L → z < L → p x z = v x (sliceIndex L s i) z) ∧
          ∀ x z, ¬ (x < L ∧ z < L) → p x z = 0) ∧
        (∃ p, stack.get? (2 * s + i) = some p ∧
          (∀ x y, x < L → y < L → p x y = v x y (sliceIndex L s i)) ∧
          ∀ x y, ¬ (x < L ∧ y < L) → p x y = 0)) ∧
    ∀ d0 d1 d2, ¬ (d0 = d1 ∧ d1 = d2) →
      slice_map d0 d1 d2 v s = none := by
  constructor
  · refine ⟨_, slice_map_cube_eq L s v hL, ?_, ?_⟩
    · simp only [List.length_append, List.length_map, List.length_range]
      ring
    · intro i hi
      have hlenA : ((List.range s).map (fun i y z =>
          if y < L ∧ z < L then v (sliceIndex L s i) y z else 0)).length
          = s := by simp
      have hlenB : ((List.range s).map (fun i x z =>
          if x < L ∧ z < L then v x (sliceIndex L s i) z else 0)).length
          = s := by simp
      have hlenC : ((List.range s).map (fun i x y =>
          if x < L ∧ y < L then v x y (sliceIndex L s i) else 0)).length
          = s := by simp
      refine ⟨⟨fun y z => if y < L ∧ z < L then v (sliceIndex L s i) y z else 0,
          ?_, ?_, ?_⟩,
        ⟨fun x z => if x < L ∧ z < L then v x (sliceIndex L s i) z else 0,
          ?_, ?_, ?_⟩,
        ⟨fun x y => if x < L ∧ y < L then v x y (sliceIndex L s i) else 0,
          ?_, ?_, ?_⟩⟩
      · rw [List.get?_append (by simp; omega),
          List.get?_append (by simp; omega)]
        rw [List.get?_map, List.get?_range hi]
        rfl
      · intro y z hy hz
        simp [hy, hz]
      · intro y z hyz
        simp [hyz]
      · rw [List.get?_append (by simp; omega),
          List.get?_append_right (by simp)]
        rw [hlenA]
        have hsub : s + i - s = i := by omega
        rw [hsub, List.get?_map, List.get?_range hi]
        rfl
      · intro x z hx hz
        simp [hx, hz]
      · intro x z hxz
        simp [hxz]
      · rw [List.get?_append_right (by simp; omega)]
        have hsub : 2 * s + i - ((List.range s).map (fun i y z =>
            if y < L ∧ z < L then v (sliceIndex L s i) y z else 0)
            ++ (List.range s).map (fun i x z =>
            if x < L ∧ z < L then v x (sliceIndex L s i) z else 0)).length
            = i := by simp; omega
        rw [hsub, List.get?_map, List.get?_range hi]
        rfl
      · intro x y hx hy
        simp [hx, hy]
      · intro x y hxy
        simp [hxy]
  · intro d0 d1 d2 hne
    rw [slice_map, if_neg hne]

/-- Witness for C4's amended theorem on the cube of side 2 with one slice
per axis. -/
theorem slice_map_spec_witness :
    ∃ stack, slice_map 2 2 2 (fun x y z => (x : ℚ) + y + z) 1 = some stack ∧
      stack.length = 3 * 1 := by
  have h := slice_map_spec 2 1 (fun x y z => (x : ℚ) + y + z)
    (by decide) (by decide)
  obtain ⟨stack, heq, hlen, _⟩ := h.1
  exact ⟨stack, heq, hlen⟩

/-- Auxiliary: a left fold by `min` bounds every participating value. -/
theorem foldl_min_le_mem (v : ℚ) (vs : List ℚ) :
    ∀ x ∈ v :: vs, vs.foldl min v ≤ x := by
  induction vs generalizing v with
  | nil =>
    intro x hx
    simp only [List.mem_singleton] at hx
    subst hx
    exact le_refl _
  | cons a t ih =>
    intro x hx
    have hfold : (a :: t).foldl min v = t.foldl min (min v a) := rfl
    rw [hfold]
    rcases List.mem_cons.mp hx with hv | hx2
    · rw [hv]
      exact le_trans (ih (min v a) (min v a) (List.mem_cons_self _ _))
        (min_le_left _ _)
    · rcases List.mem_cons.mp hx2 with ha | ht
      · rw [ha]
        exact le_trans (ih (min v a) (min v a) (List.mem_cons_self _ _))
          (min_le_right _ _)
      · exact ih (min v a) x (List.mem_cons_of_mem _ ht)

/-- Auxiliary: a left fold by `max` dominates every participating value. -/
theorem le_foldl_max_mem (v : ℚ) (vs : List ℚ) :
    ∀ x ∈ v :: vs, x ≤ vs.foldl max v := by
  induction vs generalizing v with
  | nil =>
    intro x hx
    simp only [List.mem_singleton] at hx
    subst hx
    exact le_refl _
  | cons a t ih =>
    intro x hx
    have hfold : (a :: t).foldl max v = t.foldl max (max v a) := rfl
    rw [hfold]
    rcases List.mem_cons.mp hx with hv | hx2
    · rw [hv]
      exact le_trans (le_max_left v a)
        (ih (max v a) (max v a) (List.mem_cons_self _ _))
    · rcases List.mem_cons.mp hx2 with ha | ht
      · rw [ha]
        exact le_trans (le_max_right v a)
          (ih (max v a) (max v a) (List.mem_cons_self _ _))
      · exact ih (max v a) x (List.mem_cons_of_mem _ ht)

/-- Auxiliary: `slice.min()` bounds every slice value from below. -/
theorem planeMin_le (length : ℕ) (p : ℕ → ℕ → ℚ) (x : ℚ)
    (hx : x ∈ planeValues length p) : planeMin length p ≤ x := by
  rw [planeMin]
  rcases hval : planeValues length p with _ | ⟨v, vs⟩
  · rw [hval] at hx
    exact absurd hx (List.not_mem_nil x)
  · rw [hval] at hx
    exact foldl_min_le_mem v vs x hx

/-- Auxiliary: `slice.max()` bounds every slice value from above. -/
theorem le_planeMax (length : ℕ) (p : ℕ → ℕ → ℚ) (x : ℚ)
    (hx : x ∈ planeValues length p) : x ≤ planeMax length p := by
  rw [planeMax]
  rcases hval : planeValues length p with _ | ⟨v, vs⟩
  · rw [hval] at hx
    exact absurd hx (List.not_mem_nil x)
  · rw [hval] at hx
    exact le_foldl_max_mem v vs x hx

/-- Auxiliary: any in-window value appears among the slice values. -/
theorem mem_planeValues (length : ℕ) (p : ℕ → ℕ → ℚ) (y z : ℕ)
    (hy : y < length) (hz : z < length) : p y z ∈ planeValues length p := by
  rw [planeValues, List.mem_bind]
  exact ⟨y, List.mem_range.mpr hy,
    List.mem_map.mpr ⟨z, List.mem_range.mpr hz, rfl⟩⟩

/-- Auxiliary: the scaling loop succeeds as soon as no slice has a
vanishing value range. -/
theorem scaleStack_some (length : ℕ) (stack : List (ℕ → ℕ → ℚ))
    (h : ∀ p ∈ stack, planeMax length p ≠ planeMin length p) :
    ∃ out, scaleStack length stack = some out ∧
      out.length = stack.length := by
  induction stack with
  | nil => exact ⟨[], rfl, rfl⟩
  | cons p ps ih =>
    obtain ⟨out, hout, hlen⟩ := ih (fun q hq => h q (List.mem_cons_of_mem _ hq))
    refine ⟨(fun y z => (p y z - planeMin length p)
        / (planeMax length p - planeMin length p)) :: out, ?_, by simp [hlen]⟩
    rw [scaleStack, scaleSlice, if_neg (h p (List.mem_cons_self _ _)), hout]

/-- C10: on a cube of side 201, when every extracted slice holds at least
two distinct values, `slice.max() - slice.min()` is nonzero for every
slice (the division-by-zero branch of the in-place rescaling is
unreachable), the 201×201 shape assertion passes, and `map_to_images`
completes without error, one scaled slice per extracted slice. -/
theorem map_to_images_completes (v : ℕ → ℕ → ℕ → ℚ) (s : ℕ)
    (hdis : ∀ stack, slice_map 201 201 201 v s = some stack →
      ∀ p ∈ stack, ∃ y1 z1 y2 z2, y1 < 201 ∧ z1 < 201 ∧ y2 < 201 ∧ z2 < 201 ∧
        p y1 z1 ≠ p y2 z2) :
    ∃ stack, slice_map 201 201 201 v s = some stack ∧
      (∀ p ∈ stack, planeMax 201 p - planeMin 201 p ≠ 0) ∧
      ∃ images, map_to_images 201 201 201 v s = some images ∧
        images.length = stack.length := by
  have hstack := slice_map_cube_eq 201 s v (by norm_num)
  refine ⟨_, hstack, ?_⟩
  have hne : ∀ p ∈ ((List.range s).map (fun i y z =>
      if y < 201 ∧ z < 201 then v (sliceIndex 201 s i) y z else 0) ++
      (List.range s).map (fun i x z =>
      if x < 201 ∧ z < 201 then v x (sliceIndex 201 s i) z else 0) ++
      (List.range s).map (fun i x y =>
      if x < 201 ∧ y < 201 then v x y (sliceIndex 201 s i) else 0)),
      planeMax 201 p ≠ planeMin 201 p := by
    intro p hp
    obtain ⟨y1, z1, y2, z2, hy1, hz1, hy2, hz2, hpne⟩ :=
      hdis _ hstack p hp
    intro heq
    have h1 : p y1 z1 ∈ planeValues 201 p := mem_planeValues _ _ _ _ hy1 hz1
    have h2 : p y2 z2 ∈ planeValues 201 p := mem_planeValues _ _ _ _ hy2 hz2
    have e1 : p y1 z1 = planeMin 201 p :=
      le_antisymm (heq ▸ le_planeMax _ _ _ h1) (planeMin_le _ _ _ h1)
    have e2 : p y2 z2 = planeMin 201 p :=
      le_antisymm (heq ▸ le_planeMax _ _ _ h2) (planeMin_le _ _ _ h2)
    exact hpne (e1.trans e2.symm)
  refine ⟨?_, ?_⟩
  · intro p hp hzero
    exact hne p hp (by linarith [sub_eq_zero.mp hzero])
  · obtain ⟨out, hout, hlen⟩ := scaleStack_some 201 _ hne
    refine ⟨out, ?_, hlen⟩
    rw [map_to_images, hstack, Option.some_bind, if_pos rfl, hout]

/-- Witness for C10 on the cube `v x y z = x + y + z` of side 201 with one
slice per axis: every extracted plane takes two distinct values at
`(0,0)` and `(0,1)`. -/
theorem map_to_images_completes_witness :
    ∃ stack, slice_map 201 201 201 (fun x y z => (x : ℚ) + y + z) 1
        = some stack ∧
      (∀ p ∈ stack, planeMax 201 p - planeMin 201 p ≠ 0) ∧
      ∃ images, map_to_images 201 201 201 (fun x y z => (x : ℚ) + y + z) 1
          = some images ∧
        images.length = stack.length := by
  apply map_to_images_completes
  intro stack hstack p hp
  rw [slice_map_cube_eq 201 1 (fun x y z => (x : ℚ) + y + z) (by norm_num)]
    at hstack
  cases hstack
  have hr : List.range 1 = [0] := rfl
  rw [hr] at hp
  simp only [List.map_cons, List.map_nil, List.cons_append, List.nil_append,
    List.mem_cons, List.not_mem_nil, or_false] at hp
  refine ⟨0, 0, 0, 1, by norm_num, by norm_num, by norm_num, by norm_num, ?_⟩
  rcases hp with h | h | h <;> rw [h] <;> norm_num [sliceIndex]

/-- Auxiliary: the scaling loop is length preserving when it succeeds. -/
theorem scaleStack_length (length : ℕ) :
    ∀ (stack out : List (ℕ → ℕ → ℚ)),
      scaleStack length stack = some out → out.length = stack.length := by
  intro stack
  induction stack with
  | nil =>
    intro out h
    rw [scaleStack] at h
    cases h
    rfl
  | cons p ps ih =>
    intro out h
    rw [scaleStack] at h
    rcases hsc : scaleSlice length p with _ | q
    · rw [hsc] at h
      cases h
    · rw [hsc] at h
      rcases hrec : scaleStack length ps with _ | qs
      · rw [hrec] at h
        cases h
      · rw [hrec] at h
        cases h
        simp [ih qs hrec]

/-- C5: `predict_original_inverse` concatenates the original image stack
before the inverse stack and splits the predictions at `int(len/2)`: when
both stacks hold `3*s` images, the "Original" half is exactly the model's
per-slice predictions on the original stack and the "Inverse" half those
on the inverse stack, the averaged prediction of each hand and class is
the arithmetic mean of that class's column over that hand's half, and
every successful `map_to_images` call yields `3*s` slices. -/
theorem predict_original_inverse_partition (f : α → ℚ × ℚ)
    (originalImageStack inverseImageStack : List α) (s : ℕ)
    (ho : originalImageStack.length = 3 * s)
    (hi : inverseImageStack.length = 3 * s) :
    (predict_original_inverse f originalImageStack inverseImageStack).1.1
      = originalImageStack.map f ∧
    (predict_original_inverse f originalImageStack inverseImageStack).1.2
      = inverseImageStack.map f ∧
    (predict_original_inverse f originalImageStack inverseImageStack).2.1
      = (((originalImageStack.map f).map Prod.fst).sum / (3 * s),
         ((originalImageStack.map f).map Prod.snd).sum / (3 * s)) ∧
    (predict_original_inverse f originalImageStack inverseImageStack).2.2
      = (((inverseImageStack.map f).map Prod.fst).sum / (3 * s),
         ((inverseImageStack.map f).map Prod.snd).sum / (3 * s)) ∧
    ∀ v imgs, map_to_images 201 201 201 v s = some imgs →
      imgs.length = 3 * s := by
  have hmap : predictions_from_images f
      (originalImageStack ++ inverseImageStack)
      = originalImageStack.map f ++ inverseImageStack.map f := by
    rw [predictions_from_images, List.map_append]
  have hlen : (predictions_from_images f
      (originalImageStack ++ inverseImageStack)).length = 3 * s + 3 * s := by
    rw [hmap]
    simp [ho, hi]
  have hhalf : (predictions_from_images f
      (originalImageStack ++ inverseImageStack)).length / 2 = 3 * s := by
    rw [hlen]
    omega
  have holen : (originalImageStack.map f).length = 3 * s := by
    simp [ho]
  have htake : (predictions_from_images f
      (originalImageStack ++ inverseImageStack)).take
        ((predictions_from_images f
          (originalImageStack ++ inverseImageStack)).length / 2)
      = originalImageStack.map f := by
    rw [hhalf, hmap]
    exact List.take_left' holen
  have hdrop : (predictions_from_images f
      (originalImageStack ++ inverseImageStack)).drop
        ((predictions_from_images f
          (originalImageStack ++ inverseImageStack)).length / 2)
      = inverseImageStack.map f := by
    rw [hhalf, hmap]
    exact List.drop_left' holen
  have hilen : (inverseImageStack.map f).length = 3 * s := by
    simp [hi]
  refine ⟨htake, hdrop, ?_, ?_, ?_⟩
  · show (listMean _, listMean _) = _
    rw [htake, listMean, listMean]
    simp only [List.map_map, Prod.mk.injEq]
    refine ⟨?_, ?_⟩ <;> rw [List.length_map, ho] <;> push_cast <;> ring
  · show (listMean _, listMean _) = _
    rw [hdrop, listMean, listMean]
    simp only [List.map_map, Prod.mk.injEq]
    refine ⟨?_, ?_⟩ <;> rw [List.length_map, hi] <;> push_cast <;> ring
  · intro v imgs h
    rw [map_to_images, slice_map_cube_eq 201 s v (by norm_num),
      Option.some_bind, if_pos rfl] at h
    rw [scaleStack_length 201 _ imgs h]
    simp only [List.length_append, List.length_map, List.length_range]
    ring

/-- Witness for C5 with a concrete model and stacks of `3*1` images per
hand. -/
theorem predict_original_inverse_partition_witness :
    (predict_original_inverse (fun n : ℕ => ((n : ℚ), (n : ℚ) + 1))
        [0, 1, 2] [3, 4, 5]).1.1
      = [0, 1, 2].map (fun n : ℕ => ((n : ℚ), (n : ℚ) + 1)) :=
  (predict_original_inverse_partition
    (fun n : ℕ => ((n : ℚ), (n : ℚ) + 1)) [0, 1, 2] [3, 4, 5] 1
    (by decide) (by decide)).1

/-- Auxiliary: appending the same suffix to two strings is injective. -/
theorem string_append_right_cancel {a b c : String} (h : a ++ c = b ++ c) :
    a = b := by
  apply String.ext
  have hd := congrArg String.data h
  rw [String.data_append, String.data_append] at hd
  exact List.append_cancel_right hd

/-- Counterexample to C7 as stated: with the (primary-key-respecting)
training rows named `AB` and `AB_i`, the rebuilt `ai_labels` holds two
rows named `AB_i` — the inverse record of `AB` and the original record of
`AB_i` — so the row named `AB` does not own exactly one `AB_i` label
row. -/
theorem prepare_labels_name_collision_counterexample :
    ¬ labelsClaim
      [TrainingRow.mk "AB" 0 0 1 0, TrainingRow.mk "AB_i" 0 0 1 0] := by
  intro h
  have h1 := (h.1 (TrainingRow.mk "AB" 0 0 1 0)
    (List.mem_cons_self _ _)).2.2.1
  rw [prepare_labels, (List.perm_insertionSort _ _).countP_eq] at h1
  exact absurd h1 (by decide)

/-- C7 (amended: additionally no training name may coincide with another
training name suffixed with `_i`): `prepare_labels_database` replaces any
pre-existing `ai_labels` table with, for each of the `n` training rows
named `N`, exactly one row named `N` labelled with its original score and
exactly one row named `N_i` labelled with its inverse score — `2*n` rows
in total, sorted by name. -/
theorem prepare_labels_database_spec (rows : List TrainingRow)
    (prev : Option (List (String × ℤ)))
    (hnodup : (rows.map TrainingRow.name).Nodup)
    (hfresh : ∀ r1 ∈ rows, ∀ r2 ∈ rows, r1.name ++ "_i" ≠ r2.name) :
    runPrepareLabelsDatabase prev rows = some (prepare_labels rows) ∧
    labelsClaim rows := by
  haveI hTot : IsTotal (String × ℤ) (fun a b => a.1 ≤ b.1) :=
    ⟨fun a b => le_total a.1 b.1⟩
  haveI hTrans : IsTrans (String × ℤ) (fun a b => a.1 ≤ b.1) :=
    ⟨fun _ _ _ hab hbc => le_trans hab hbc⟩
  have hperm : (prepare_labels rows).Perm
      (labelRowsOriginal rows ++ labelRowsInverse rows) :=
    List.perm_insertionSort _ _
  have hcountName : ∀ r ∈ rows,
      rows.countP (fun r2 => r2.name == r.name) = 1 := by
    intro r hr
    have h2 : rows.countP (fun r2 => r2.name == r.name)
        = (rows.map TrainingRow.name).count r.name := by
      rw [List.count, List.countP_map]
      rfl
    rw [h2]
    exact List.count_eq_one_of_mem hnodup (List.mem_map.mpr ⟨r, hr, rfl⟩)
  refine ⟨rfl, ?_, ?_, ?_⟩
  · intro r hr
    refine ⟨?_, ?_, ?_, ?_⟩
    · rw [hperm.countP_eq, List.countP_append]
      have ho : (labelRowsOriginal rows).countP
          (fun x => x.1 == r.name) = 1 := by
        rw [labelRowsOriginal, List.countP_map]
        exact hcountName r hr
      have hi0 : (labelRowsInverse rows).countP
          (fun x => x.1 == r.name) = 0 := by
        rw [labelRowsInverse, List.countP_map]
        apply List.countP_eq_zero.mpr
        intro r2 hr2
        simp only [Function.comp_apply, beq_iff_eq]
        exact hfresh r2 hr2 r hr
      rw [ho, hi0]
    · exact hperm.mem_iff.mpr (List.mem_append_left _
        (List.mem_map.mpr ⟨r, hr, rfl⟩))
    · rw [hperm.countP_eq, List.countP_append]
      have ho0 : (labelRowsOriginal rows).countP
          (fun x => x.1 == r.name ++ "_i") = 0 := by
        rw [labelRowsOriginal, List.countP_map]
        apply List.countP_eq_zero.mpr
        intro r2 hr2
        simp only [Function.comp_apply, beq_iff_eq]
        intro heq
        exact hfresh r hr r2 hr2 heq.symm
      have hi1 : (labelRowsInverse rows).countP
          (fun x => x.1 == r.name ++ "_i") = 1 := by
        rw [labelRowsInverse, List.countP_map]
        have hcongr : rows.countP ((fun x : String × ℤ =>
            x.1 == r.name ++ "_i") ∘ (fun r2 =>
            (r2.name ++ "_i", r2.inverse_score)))
            = rows.countP (fun r2 => r2.name == r.name) := by
          apply List.countP_congr
          intro r2 _
          simp only [Function.comp_apply, beq_iff_eq]
          constructor
          · intro heq
            exact string_append_right_cancel heq
          · intro heq
            rw [heq]
        rw [hcongr]
        exact hcountName r hr
      rw [ho0, hi1]
    · exact hperm.mem_iff.mpr (List.mem_append_right _
        (List.mem_map.mpr ⟨r, hr, rfl⟩))
  · rw [hperm.length_eq, List.length_append, labelRowsOriginal,
      labelRowsInverse, List.length_map, List.length_map]
    omega
  · exact List.sorted_insertionSort _ _

/-- Witness for C7's amended theorem on two well-formed training rows. -/
theorem prepare_labels_database_spec_witness :
    runPrepareLabelsDatabase none
        [TrainingRow.mk "ABC4" 5 11 0 1, TrainingRow.mk "A3C4" 79 2 1 0]
      = some (prepare_labels
        [TrainingRow.mk "ABC4" 5 11 0 1, TrainingRow.mk "A3C4" 79 2 1 0]) ∧
    labelsClaim
      [TrainingRow.mk "ABC4" 5 11 0 1, TrainingRow.mk "A3C4" 79 2 1 0] :=
  prepare_labels_database_spec
    [TrainingRow.mk "ABC4" 5 11 0 1, TrainingRow.mk "A3C4" 79 2 1 0]
    none (by decide) (by decide)

/-- Auxiliary: in a duplicate-free list the element at a position does not
survive the removal of that position. -/
theorem get_not_mem_eraseIdx {l : List α} (hnd : l.Nodup) {j : ℕ}
    (hj : j < l.length) : l.get ⟨j, hj⟩ ∉ l.eraseIdx j := by
  rw [List.eraseIdx_eq_take_drop_succ]
  intro hmem
  have hsplit : l = l.take j ++ l.get ⟨j, hj⟩ :: l.drop (j + 1) := by
    conv_lhs => rw [← List.take_append_drop j l]
    congr 1
    exact List.drop_eq_get_cons hj
  rw [hsplit, List.nodup_append] at hnd
  obtain ⟨h1, h2, h3⟩ := hnd
  rcases List.mem_append.mp hmem with h | h
  · exact h3 h (List.mem_cons_self _ _)
  · exact (List.nodup_cons.mp h2).1 h

/-- Auxiliary: each without-replacement pass of `k ≤ |pool|` steps over a
duplicate-free pool serves exactly `k` pairwise-distinct pool elements. -/
theorem sampleAux_spec (k : ℕ) :
    ∀ (st : ℕ) (pool : List α), k ≤ pool.length → pool.Nodup →
      (sampleAux st pool k).length = k ∧ (sampleAux st pool k).Nodup ∧
      ∀ x ∈ sampleAux st pool k, x ∈ pool := by
  induction k with
  | zero =>
    intro st pool _ _
    cases pool <;>
      exact ⟨rfl, List.nodup_nil, fun x hx => absurd hx (List.not_mem_nil x)⟩
  | succ k ih =>
    intro st pool hk hnd
    match pool with
    | [] => exact absurd hk (by simp)
    | a :: t =>
      have hj : st % (a :: t).length < (a :: t).length :=
        Nat.mod_lt _ (Nat.succ_pos _)
      have hdef : sampleAux st (a :: t) (k + 1)
          = (a :: t).get ⟨st % (a :: t).length, hj⟩ ::
            sampleAux (st / 2 + 1)
              ((a :: t).eraseIdx (st % (a :: t).length)) k := rfl
      have hlen : ((a :: t).eraseIdx (st % (a :: t).length)).length
          = t.length := by
        rw [List.length_eraseIdx_of_lt hj]
        simp
      have hk2 : k ≤ ((a :: t).eraseIdx (st % (a :: t).length)).length := by
        rw [hlen]
        simp only [List.length_cons] at hk
        omega
      obtain ⟨l1, l2, l3⟩ := ih (st / 2 + 1)
        ((a :: t).eraseIdx (st % (a :: t).length)) hk2 (hnd.eraseIdx _)
      rw [hdef]
      refine ⟨by rw [List.length_cons, l1], ?_, ?_⟩
      · rw [List.nodup_cons]
        exact ⟨fun hmem => get_not_mem_eraseIdx hnd hj (l3 _ hmem), l2⟩
      · intro x hx
        rcases List.mem_cons.mp hx with h | h
        · rw [h]
          exact List.get_mem _ _ _
        · exact List.eraseIdx_subset _ _ (l3 x h)

/-- Counterexample to C9 as stated: a duplicate-free one-element list with
`split_percent = 200` (the 0–100 assertion is swallowed by its
`try/except`) gives `floor(m * split_percent / 100) = 2 > 0`, yet
`test_split` raises `ValueError` in `random.sample` instead of returning
2 pairwise-distinct elements of a 1-element list. -/
theorem test_split_oversized_percent_counterexample :
    [("a" : String)].Nodup ∧
    pyInt ((([("a" : String)].length : ℕ) : ℚ) * (200 / 100)) = 2 ∧
    test_split 0 [("a" : String)] 200 = none := by
  refine ⟨by decide, by norm_num [pyInt], ?_⟩
  rw [test_split]
  norm_num [pyInt, randomSample]

/-- C9 (amended: additionally the requested sample size
`floor(m * split_percent / 100)` must not exceed `m` — beyond that
`random.sample` raises `ValueError`, the swallowed 0–100 assertion
notwithstanding): `test_split` is deterministic (the generator is reseeded
with the constant 9 on every call, so the ambient PRNG state is
irrelevant), returns exactly `floor(m * split_percent / 100)`
pairwise-distinct elements drawn from the duplicate-free input list, and
fails with an assertion error whenever `floor(m * split_percent / 100)`
is zero. -/
theorem test_split_deterministic_sample (file_list : List α)
    (split_percent : ℚ) (s1 s2 : ℕ) (hnd : file_list.Nodup)
    (hpos : 0 < pyInt ((file_list.length : ℚ) * (split_percent / 100)))
    (hle : (pyInt ((file_list.length : ℚ)
      * (split_percent / 100))).toNat ≤ file_list.length) :
    test_split s1 file_list split_percent
      = test_split s2 file_list split_percent ∧
    (∃ r, test_split s1 file_list split_percent = some r ∧
      r.length = (pyInt ((file_list.length : ℚ)
        * (split_percent / 100))).toNat ∧
      r.Nodup ∧ ∀ x ∈ r, x ∈ file_list) ∧
    ∀ p : ℚ, pyInt ((file_list.length : ℚ) * (p / 100)) = 0 →
      test_split s1 file_list p = none := by
  refine ⟨rfl, ?_, ?_⟩
  · rw [test_split]
    rw [if_neg (by omega)]
    rw [randomSample, if_pos hle]
    obtain ⟨l1, l2, l3⟩ := sampleAux_spec
      (pyInt ((file_list.length : ℚ) * (split_percent / 100))).toNat
      9 file_list hle hnd
    exact ⟨_, rfl, l1, l2, l3⟩
  · intro p hp
    rw [test_split, if_pos (le_of_eq hp)]

/-- Auxiliary: unfolding `findPhraseRemainders` on the empty text. -/
theorem findPhraseRemainders_nil : findPhraseRemainders [] = [] := by
  rw [findPhraseRemainders]

/-- Auxiliary: unfolding `findPhraseRemainders` one character in. -/
theorem findPhraseRemainders_cons (c : Char) (rest : List Char) :
    findPhraseRemainders (c :: rest)
      = if phraseSpaceGroupP (c :: rest) then
          ((c :: rest).drop 11).takeWhile (fun ch => ch != '\n') ::
            findPhraseRemainders
              (((c :: rest).drop 11).dropWhile (fun ch => ch != '\n'))
        else findPhraseRemainders rest := by
  rw [findPhraseRemainders]

/-- Auxiliary: unfolding `findGroups` one character in. -/
theorem findGroups_cons (c : Char) (rest : List Char) :
    findGroups (c :: rest)
      = if isUpperAZ c && headIsGroupChar rest then
          (c :: rest.takeWhile isGroupChar) ::
            findGroups (rest.dropWhile isGroupChar)
        else findGroups rest := by
  rw [findGroups]

/-- Auxiliary: a `takeWhile` drops an appended part whose head fails. -/
theorem takeWhile_append_nil {p : α → Bool} {u v : List α}
    (hv : v.takeWhile p = []) :
    (u ++ v).takeWhile p = u.takeWhile p := by
  rw [List.takeWhile_append]
  by_cases h : (u.takeWhile p).length = u.length
  · rw [if_pos h, hv, List.append_nil]
    exact ((List.takeWhile_prefix p).eq_of_length h).symm
  · rw [if_neg h]

/-- Auxiliary: a `dropWhile` keeps an appended part whose head fails. -/
theorem dropWhile_append_keep {p : α → Bool} {u v : List α}
    (hv : v.dropWhile p = v) :
    (u ++ v).dropWhile p = u.dropWhile p ++ v := by
  rw [List.dropWhile_append]
  by_cases h : (u.dropWhile p).isEmpty
  · rw [if_pos h, hv]
    rw [List.isEmpty_iff] at h
    rw [h, List.nil_append]
  · rw [if_neg h]

/-- Auxiliary: a fixed-length window survives `takeWhile` exactly when all
its characters pass the filter. -/
theorem takeWhile_take_eq_iff {p : α → Bool} (l w : List α) (n : ℕ)
    (hlen : w.length = n) (hw : ∀ c ∈ w, p c = true) :
    (l.takeWhile p).take n = w ↔ l.take n = w := by
  constructor
  · intro h
    have hpre : w <+: l := by
      have h1 : (l.takeWhile p).take n <+: l.takeWhile p := List.take_prefix _ _
      have h2 : l.takeWhile p <+: l := List.takeWhile_prefix _
      exact h ▸ h1.trans h2
    have h3 := List.prefix_iff_eq_take.mp hpre
    rw [hlen] at h3
    exact h3.symm
  · intro h
    have hsplit : l = w ++ l.drop n := by
      conv_lhs => rw [← List.take_append_drop n l]
      rw [h]
    rw [hsplit, List.takeWhile_append_of_pos hw, List.take_left' hlen]

/-- Auxiliary: the phrase test only reads the current line. -/
theorem phraseSpaceGroupP_takeWhile (l : List Char) :
    phraseSpaceGroupP (l.takeWhile (fun ch => ch != '\n'))
      ↔ phraseSpaceGroupP l := by
  rw [phraseSpaceGroupP, phraseSpaceGroupP]
  exact or_congr (takeWhile_take_eq_iff l _ 11 (by decide) (by decide))
    (or_congr (takeWhile_take_eq_iff l _ 11 (by decide) (by decide))
      (or_congr (takeWhile_take_eq_iff l _ 11 (by decide) (by decide))
        (takeWhile_take_eq_iff l _ 11 (by decide) (by decide))))

/-- Auxiliary: no line opening with a newline holds the phrase. -/
theorem not_phraseSpaceGroupP_newline (xs : List Char) :
    ¬ phraseSpaceGroupP ('\n' :: xs) := by
  intro h
  rcases h with h | h | h | h <;>
    · rw [List.take_succ_cons] at h
      injection h with h1 _
      exact absurd h1 (by decide)

/-- Auxiliary: the phrase forces at least 11 characters. -/
theorem phraseSpaceGroupP_length {l : List Char}
    (h : phraseSpaceGroupP l) : 11 ≤ l.length := by
  have hlen : (l.take 11).length = 11 := by
    rcases h with h | h | h | h <;> rw [h] <;> rfl
  rw [List.length_take] at hlen
  omega

/-- Auxiliary: `takeWhile` up to an explicit newline returns the line. -/
theorem takeWhile_line {u rest : List Char} (h : '\n' ∉ u) :
    (u ++ '\n' :: rest).takeWhile (fun ch => ch != '\n') = u := by
  rw [takeWhile_append_nil (v := '\n' :: rest) (by simp)]
  refine List.takeWhile_eq_self_iff.mpr ?_
  intro x hx
  have : x ≠ '\n' := fun he => h (he ▸ hx)
  simpa using this

/-- Auxiliary: `dropWhile` up to an explicit newline returns the tail. -/
theorem dropWhile_line {u rest : List Char} (h : '\n' ∉ u) :
    (u ++ '\n' :: rest).dropWhile (fun ch => ch != '\n') = '\n' :: rest := by
  rw [dropWhile_append_keep (v := '\n' :: rest) (by simp)]
  have hu : u.dropWhile (fun ch => ch != '\n') = [] := by
    refine List.dropWhile_eq_nil_iff.mpr ?_
    intro x hx
    have : x ≠ '\n' := fun he => h (he ▸ hx)
    simpa using this
  rw [hu, List.nil_append]

/-- Auxiliary: the phrase test on a line with its continuation equals the
phrase test on the line alone. -/
theorem phrase_line_iff {u rest : List Char} (h : '\n' ∉ u) :
    phraseSpaceGroupP (u ++ '\n' :: rest) ↔ phraseSpaceGroupP u := by
  have h1 := phraseSpaceGroupP_takeWhile (u ++ '\n' :: rest)
  rw [takeWhile_line h] at h1
  exact h1.symm

/-- Auxiliary: the phrase scan over a newline-free text finds at most the
one remainder that `firstRemainder` reports. -/
theorem findPhraseRemainders_no_newline_eq (l : List Char) (h : '\n' ∉ l) :
    findPhraseRemainders l = (firstRemainder l).toList := by
  induction l with
  | nil =>
    rw [findPhraseRemainders_nil, firstRemainder]
    rfl
  | cons c rest ih =>
    have hrest : '\n' ∉ rest := fun hm => h (List.mem_cons_of_mem _ hm)
    rw [findPhraseRemainders_cons, firstRemainder]
    by_cases hph : phraseSpaceGroupP (c :: rest)
    · rw [if_pos hph, if_pos hph]
      have hafter : '\n' ∉ (c :: rest).drop 11 :=
        fun hm => h (List.drop_subset _ _ hm)
      have htw : ((c :: rest).drop 11).takeWhile (fun ch => ch != '\n')
          = (c :: rest).drop 11 := by
        refine List.takeWhile_eq_self_iff.mpr ?_
        intro x hx
        have : x ≠ '\n' := fun he => hafter (he ▸ hx)
        simpa using this
      have hdw : ((c :: rest).drop 11).dropWhile (fun ch => ch != '\n')
          = [] := by
        refine List.dropWhile_eq_nil_iff.mpr ?_
        intro x hx
        have : x ≠ '\n' := fun he => hafter (he ▸ hx)
        simpa using this
      rw [htw, hdw, findPhraseRemainders_nil]
      rfl
    · rw [if_neg hph, if_neg hph]
      exact ih hrest

/-- Auxiliary: the phrase scan handles one line, then its continuation. -/
theorem findPhraseRemainders_split_line (line rest : List Char)
    (h : '\n' ∉ line) :
    findPhraseRemainders (line ++ '\n' :: rest)
      = (firstRemainder line).toList ++ findPhraseRemainders rest := by
  induction line with
  | nil =>
    rw [List.nil_append, findPhraseRemainders_cons,
      if_neg (not_phraseSpaceGroupP_newline rest), firstRemainder]
    rfl
  | cons c line' ih =>
    have hline' : '\n' ∉ line' := fun hm => h (List.mem_cons_of_mem _ hm)
    have hphiff : phraseSpaceGroupP ((c :: line') ++ '\n' :: rest)
        ↔ phraseSpaceGroupP (c :: line') := phrase_line_iff h
    rw [List.cons_append, findPhraseRemainders_cons]
    by_cases hph : phraseSpaceGroupP (c :: line')
    · have hphT : phraseSpaceGroupP (c :: (line' ++ '\n' :: rest)) := by
        rw [← List.cons_append]
        exact hphiff.mpr hph
      rw [if_pos hphT]
      have h11 : 11 ≤ (c :: line').length := phraseSpaceGroupP_length hph
      have hdropT : (c :: (line' ++ '\n' :: rest)).drop 11
          = (c :: line').drop 11 ++ '\n' :: rest := by
        rw [← List.cons_append, List.drop_append_eq_append_drop,
          Nat.sub_eq_zero_of_le h11, List.drop_zero]
      have hu : '\n' ∉ (c :: line').drop 11 :=
        fun hm => h (List.drop_subset _ _ hm)
      rw [hdropT, takeWhile_line hu, dropWhile_line hu,
        findPhraseRemainders_cons,
        if_neg (not_phraseSpaceGroupP_newline rest),
        firstRemainder, if_pos hph]
      rfl
    · have hphT : ¬ phraseSpaceGroupP (c :: (line' ++ '\n' :: rest)) := by
        rw [← List.cons_append]
        exact fun hx => hph (hphiff.mp hx)
      rw [if_neg hphT, ih hline', firstRemainder, if_neg hph]

/-- Auxiliary: a newline-free text is one line. -/
theorem splitLines_no_newline (l : List Char) (h : '\n' ∉ l) :
    splitLines l = [l] := by
  induction l with
  | nil => rfl
  | cons c rest ih =>
    have hc : c ≠ '\n' := fun he => h (he ▸ List.mem_cons_self _ _)
    have hrest : '\n' ∉ rest := fun hm => h (List.mem_cons_of_mem _ hm)
    rw [splitLines, if_neg hc, ih hrest]

/-- Auxiliary: splitting at the first newline. -/
theorem splitLines_append_newline (u v : List Char) (h : '\n' ∉ u) :
    splitLines (u ++ '\n' :: v) = u :: splitLines v := by
  induction u with
  | nil => rw [List.nil_append, splitLines, if_pos rfl]
  | cons c u2 ih =>
    have hc : c ≠ '\n' := fun he => h (he ▸ List.mem_cons_self _ _)
    have hu2 : '\n' ∉ u2 := fun hm => h (List.mem_cons_of_mem _ hm)
    rw [List.cons_append, splitLines, if_neg hc, ih hu2]

/-- Auxiliary: a text holding a newline splits at its first one. -/
theorem exists_newline_split {l : List Char} (h : '\n' ∈ l) :
    ∃ u v, l = u ++ '\n' :: v ∧ '\n' ∉ u := by
  induction l with
  | nil => cases h
  | cons c rest ih =>
    by_cases hc : c = '\n'
    · exact ⟨[], rest, by rw [hc]; rfl, List.not_mem_nil _⟩
    · have hr : '\n' ∈ rest := by
        rcases List.mem_cons.mp h with h1 | h1
        · exact absurd h1.symm hc
        · exact h1
      obtain ⟨u, v, hsplit, hu⟩ := ih hr
      refine ⟨c :: u, v, by rw [hsplit]; rfl, ?_⟩
      intro hm
      rcases List.mem_cons.mp hm with h1 | h1
      · exact hc h1.symm
      · exact hu h1

/-- C6's key alignment: the left-to-right phrase scan of the whole text
reads the same remainders as the line-by-line description. -/
theorem findPhraseRemainders_eq_spec (l : List Char) :
    findPhraseRemainders l = specLineRemainders l := by
  suffices H : ∀ n (l : List Char), l.length = n →
      findPhraseRemainders l = specLineRemainders l from H l.length l rfl
  intro n
  induction n using Nat.strong_induction_on with
  | _ n ih =>
    intro l hlen
    by_cases h : '\n' ∈ l
    · obtain ⟨u, v, rfl, hu⟩ := exists_newline_split h
      have hv : findPhraseRemainders v = specLineRemainders v := by
        refine ih v.length ?_ v rfl
        rw [← hlen]
        simp only [List.length_append, List.length_cons]
        omega
      rw [specLineRemainders, splitLines_append_newline u v hu,
        List.filterMap_cons, findPhraseRemainders_split_line u v hu]
      cases hfr : firstRemainder u
      · rw [hv, specLineRemainders]
        rfl
      · rw [hv, specLineRemainders]
        rfl
    · rw [findPhraseRemainders_no_newline_eq l h, specLineRemainders,
        splitLines_no_newline l h]
      cases hfr : firstRemainder l <;> simp [List.filterMap_cons, hfr]

/-- Auxiliary: every line produced by `splitLines` is newline free. -/
theorem mem_splitLines_no_newline (l : List Char) :
    ∀ line ∈ splitLines l, '\n' ∉ line := by
  induction l with
  | nil =>
    intro line hline
    rw [splitLines] at hline
    rcases List.mem_cons.mp hline with h1 | h1
    · rw [h1]
      exact List.not_mem_nil _
    · exact absurd h1 (List.not_mem_nil _)
  | cons c rest ih =>
    intro line hline
    by_cases hc : c = '\n'
    · rw [splitLines, if_pos hc] at hline
      rcases List.mem_cons.mp hline with h1 | h1
      · rw [h1]
        exact List.not_mem_nil _
      · exact ih line h1
    · rw [splitLines, if_neg hc] at hline
      rcases hsp : splitLines rest with _ | ⟨line1, more⟩
      · rw [hsp] at hline
        rcases List.mem_cons.mp hline with h1 | h1
        · rw [h1]
          intro hm
          rcases List.mem_cons.mp hm with h2 | h2
          · exact hc h2.symm
          · exact absurd h2 (List.not_mem_nil _)
        · exact absurd h1 (List.not_mem_nil _)
      · rw [hsp] at hline
        rcases List.mem_cons.mp hline with h1 | h1
        · rw [h1]
          intro hm
          rcases List.mem_cons.mp hm with h2 | h2
          · exact hc h2.symm
          · exact ih line1 (hsp ▸ List.mem_cons_self _ _) h2
        · exact ih line (hsp ▸ List.mem_cons_of_mem _ h1)

/-- Auxiliary: a line remainder only holds characters of its line. -/
theorem firstRemainder_subset (l : List Char) :
    ∀ r, firstRemainder l = some r → ∀ x ∈ r, x ∈ l := by
  induction l with
  | nil =>
    intro r hr
    rw [firstRemainder] at hr
    cases hr
  | cons c rest ih =>
    intro r hr
    rw [firstRemainder] at hr
    by_cases hph : phraseSpaceGroupP (c :: rest)
    · rw [if_pos hph] at hr
      cases hr
      exact fun x hx => List.drop_subset _ _ hx
    · rw [if_neg hph] at hr
      exact fun x hx => List.mem_cons_of_mem _ (ih r hr x hx)

/-- Auxiliary: every remainder served by the phrase scan is newline
free. -/
theorem findPhraseRemainders_no_newline (l : List Char) :
    ∀ r ∈ findPhraseRemainders l, '\n' ∉ r := by
  intro r hr
  rw [findPhraseRemainders_eq_spec, specLineRemainders] at hr
  obtain ⟨line, hline, hfr⟩ := List.mem_filterMap.mp hr
  intro hm
  exact mem_splitLines_no_newline l line hline
    (firstRemainder_subset line r hfr '\n' hm)

/-- Auxiliary: unfolding `findGroups` on the empty text. -/
theorem findGroups_nil : findGroups [] = [] := by
  rw [findGroups]

/-- Auxiliary: a group match never begins at a newline. -/
theorem findGroups_newline (v : List Char) :
    findGroups ('\n' :: v) = findGroups v := by
  rw [findGroups_cons]
  have h : isUpperAZ '\n' = false := rfl
  simp [h]

/-- Auxiliary: group matches never cross a newline, so the scan splits
there. -/
theorem findGroups_append_newline (u v : List Char) (h : '\n' ∉ u) :
    findGroups (u ++ '\n' :: v) = findGroups u ++ findGroups v := by
  suffices H : ∀ n (u : List Char), u.length = n → '\n' ∉ u →
      findGroups (u ++ '\n' :: v) = findGroups u ++ findGroups v from
    H u.length u rfl h
  intro n
  induction n using Nat.strong_induction_on with
  | _ n ih =>
    intro u hlen hu
    match u with
    | [] =>
      rw [List.nil_append, findGroups_newline, findGroups_nil,
        List.nil_append]
    | c :: u2 =>
      have hu2 : '\n' ∉ u2 := fun hm => hu (List.mem_cons_of_mem _ hm)
      rw [List.cons_append, findGroups_cons c (u2 ++ '\n' :: v),
        findGroups_cons c u2]
      rcases u2 with _ | ⟨d, u3⟩
      · have h1 : headIsGroupChar ([] ++ '\n' :: v) = false := rfl
        have h2 : headIsGroupChar ([] : List Char) = false := rfl
        rw [h1, h2, Bool.and_false]
        simp only [Bool.false_eq_true, if_false]
        rw [List.nil_append, findGroups_newline, findGroups_nil,
          List.nil_append]
      · have hhead : headIsGroupChar ((d :: u3) ++ '\n' :: v)
            = headIsGroupChar (d :: u3) := rfl
        rw [hhead]
        have hgc : isGroupChar '\n' = false := rfl
        by_cases hcnd : (isUpperAZ c && headIsGroupChar (d :: u3)) = true
        · rw [if_pos hcnd, if_pos hcnd]
          have htw : ((d :: u3) ++ '\n' :: v).takeWhile isGroupChar
              = (d :: u3).takeWhile isGroupChar :=
            takeWhile_append_nil (v := '\n' :: v)
              (by simp [List.takeWhile_cons, hgc])
          have hdw : ((d :: u3) ++ '\n' :: v).dropWhile isGroupChar
              = (d :: u3).dropWhile isGroupChar ++ '\n' :: v :=
            dropWhile_append_keep (v := '\n' :: v)
              (by simp [List.dropWhile_cons, hgc])
          rw [htw, hdw, List.cons_append]
          congr 1
          refine ih ((d :: u3).dropWhile isGroupChar).length ?_ _ rfl ?_
          · have hle : ((d :: u3).dropWhile isGroupChar).length
                ≤ (d :: u3).length := (List.dropWhile_sublist _).length_le
            simp only [List.length_cons] at hle hlen ⊢
            omega
          · intro hm
            exact hu2 ((List.dropWhile_sublist _).subset hm)
        · rw [if_neg hcnd, if_neg hcnd]
          refine ih (d :: u3).length ?_ _ rfl hu2
          simp only [List.length_cons] at hlen ⊢
          omega

/-- Auxiliary: scanning the newline join of newline-free remainders is
scanning each remainder. -/
theorem findGroups_joinLines (rs : List (List Char))
    (h : ∀ r ∈ rs, '\n' ∉ r) :
    findGroups (joinLines rs) = (rs.map findGroups).join := by
  induction rs with
  | nil =>
    rw [show joinLines ([] : List (List Char)) = [] from rfl, findGroups_nil]
    rfl
  | cons r rs2 ih =>
    rcases rs2 with _ | ⟨r2, rest⟩
    · show findGroups r = List.join [findGroups r]
      simp
    · have hjoin : joinLines (r :: r2 :: rest)
          = r ++ '\n' :: joinLines (r2 :: rest) := rfl
      rw [hjoin,
        findGroups_append_newline r _ (h r (List.mem_cons_self _ _)),
        ih (fun x hx => h x (List.mem_cons_of_mem _ hx))]
      simp

/-- C6: `find_space_group` returns the first candidate space group of the
text — among the line remainders that follow an occurrence of the phrase
"space group" (either word's initial in either case), the first substring
made of an uppercase letter followed by one or more digits or spaces,
with its spaces removed — and raises an exception exactly when no such
candidate exists. -/
theorem find_space_group_spec (text : List Char) :
    find_space_group text
      = match specCandidates text with
        | [] => Except.error ()
        | g :: _ => Except.ok (removeSpaces g) := by
  have hmain : findGroups (joinLines (findPhraseRemainders text))
      = specCandidates text := by
    rw [findGroups_joinLines _ (findPhraseRemainders_no_newline text),
      findPhraseRemainders_eq_spec, specCandidates]
  rw [find_space_group]
  rw [hmain]
  cases hsc : specCandidates text with
  | nil => rfl
  | cons g gs => rfl

/-- Auxiliary: dropping a `takeWhile` prefix is `dropWhile`. -/
theorem drop_length_takeWhile (p : α → Bool) (l : List α) :
    l.drop (l.takeWhile p).length = l.dropWhile p := by
  have h := List.takeWhile_append_dropWhile p l
  calc l.drop (l.takeWhile p).length
      = (l.takeWhile p ++ l.dropWhile p).drop (l.takeWhile p).length := by
        rw [h]
    _ = l.dropWhile p := List.drop_left _ _

/-- Auxiliary: the head surviving a `dropWhile` fails the filter. -/
theorem dropWhile_head_false {p : α → Bool} {l : List α} {c : α}
    {r : List α} (h : l.dropWhile p = c :: r) : p c = false := by
  induction l with
  | nil => cases h
  | cons x xs ih =>
    rw [List.dropWhile_cons] at h
    by_cases hp : p x = true
    · rw [if_pos hp] at h
      exact ih h
    · rw [if_neg hp] at h
      injection h with h1 _
      rw [← h1]
      exact Bool.not_eq_true _ |>.mp hp

/-- Auxiliary: `takeWhile` recovers a satisfying prefix followed by a
failing continuation. -/
theorem takeWhile_unique {p : α → Bool} {a b : List α}
    (ha : ∀ x ∈ a, p x = true) (hb : b.takeWhile p = []) :
    (a ++ b).takeWhile p = a := by
  rw [List.takeWhile_append_of_pos ha, hb, List.append_nil]

/-- Auxiliary: digits are not spaces. -/
theorem digit_ne_space {x : Char} (h : isDigitCh x = true) : x ≠ ' ' := by
  intro he
  rw [he] at h
  exact absurd h (by decide)

/-- Auxiliary: `float()` on the space-stripped strict shape — spaces, a
digit run, a dot, a digit run — yields the decimal value. -/
theorem parse_strict_shape (sp d1 d2 : List Char)
    (hsp : ∀ c ∈ sp, c = ' ') (hd1 : d1 ≠ [])
    (hd1d : ∀ c ∈ d1, isDigitCh c = true)
    (hd2 : d2 ≠ []) (hd2d : ∀ c ∈ d2, isDigitCh c = true) :
    parsePyFloat (removeSpaces (sp ++ d1 ++ '.' :: d2))
      = some ((natOfDigits d1 : ℚ) + natOfDigits d2 / 10 ^ d2.length) := by
  have hstrip : removeSpaces (sp ++ d1 ++ '.' :: d2) = d1 ++ '.' :: d2 := by
    rw [removeSpaces, List.filter_append, List.filter_append]
    have h1 : sp.filter (fun c => c != ' ') = [] := by
      rw [List.filter_eq_nil_iff]
      intro a ha
      rw [hsp a ha]
      decide
    have h2 : d1.filter (fun c => c != ' ') = d1 := by
      rw [List.filter_eq_self]
      intro a ha
      have := digit_ne_space (hd1d a ha)
      simpa using this
    have h3 : ('.' :: d2).filter (fun c => c != ' ') = '.' :: d2 := by
      rw [List.filter_eq_self]
      intro a ha
      rcases List.mem_cons.mp ha with h4 | h4
      · rw [h4]
        decide
      · have := digit_ne_space (hd2d a h4)
        simpa using this
    rw [h1, h2, h3, List.nil_append]
  rw [hstrip, parsePyFloat]
  have htw : (d1 ++ '.' :: d2).takeWhile isDigitCh = d1 :=
    takeWhile_unique hd1d (by rw [List.takeWhile_cons_of_neg] <;> decide)
  rw [htw, if_neg hd1]
  have hdrop : (d1 ++ '.' :: d2).drop d1.length = '.' :: d2 :=
    List.drop_left _ _
  rw [hdrop]
  have hcond : ¬ (d2 = [] ∨ ¬ d2.all isDigitCh = true) := by
    push_neg
    exact ⟨hd2, List.all_eq_true.mpr hd2d⟩
  dsimp only
  rw [if_neg hcond, if_pos rfl]

/-- Auxiliary: the leading space run holds only spaces. -/
theorem ccSpaces_spaces (l : List Char) : ∀ c ∈ ccSpaces l, c = ' ' := by
  intro c hc
  have h := List.mem_takeWhile_imp hc
  simpa using h

/-- Auxiliary: the first digit run holds only digits. -/
theorem ccDigits1_digits (l : List Char) :
    ∀ c ∈ ccDigits1 l, isDigitCh c = true :=
  fun _ hc => List.mem_takeWhile_imp hc

/-- Auxiliary: the text after the first digit run starts at the first
non-digit. -/
theorem ccAfterDigits_eq (l : List Char) :
    ccAfterDigits l = (ccAfterSpaces l).dropWhile isDigitCh := by
  rw [ccAfterDigits, ccDigits1]
  exact drop_length_takeWhile _ _

/-- Auxiliary: the wildcard character of a match is never a digit. -/
theorem ccAfterDigits_head_not_digit {l : List Char} {c : Char}
    {r : List Char} (h : ccAfterDigits l = c :: r) : isDigitCh c = false := by
  rw [ccAfterDigits_eq] at h
  exact dropWhile_head_false h

/-- Auxiliary: a nonempty leading digit run means the text opens with a
digit. -/
theorem headIsDigit_of_takeWhile_ne {r : List Char}
    (h : r.takeWhile isDigitCh ≠ []) : headIsDigit r = true := by
  rcases r with _ | ⟨x, xs⟩
  · exact absurd rfl h
  · by_cases hx : isDigitCh x = true
    · exact hx
    · rw [List.takeWhile_cons_of_neg (by simpa using hx)] at h
      exact absurd rfl h

/-- Auxiliary: a text opening with a digit has a nonempty digit run. -/
theorem takeWhile_digit_ne_nil {r : List Char}
    (h : headIsDigit r = true) : r.takeWhile isDigitCh ≠ [] := by
  rcases r with _ | ⟨x, xs⟩
  · cases h
  · have hx : isDigitCh x = true := h
    rw [List.takeWhile_cons_of_pos hx]
    exact List.cons_ne_nil _ _

/-- Auxiliary: a digit run followed by anything starts with no spaces. -/
theorem takeWhile_space_nil_of_digits {d1 rest : List Char} (hne : d1 ≠ [])
    (hdig : ∀ c ∈ d1, isDigitCh c = true) :
    (d1 ++ rest).takeWhile (fun c => c == ' ') = [] := by
  rcases d1 with _ | ⟨e, d1t⟩
  · exact absurd rfl hne
  · rw [List.cons_append, List.takeWhile_cons_of_neg]
    have he : e ≠ ' ' := digit_ne_space (hdig e (List.mem_cons_self _ _))
    simpa using he

/-- Auxiliary: a spaces-then-digits string is not a spaces-then-decimal
string (no dot fits anywhere). -/
theorem not_strict_spaces_digits {sp d1 : List Char}
    (hsp : ∀ c ∈ sp, c = ' ') (hd1 : ∀ c ∈ d1, isDigitCh c = true) :
    ¬ IsStrictCC (sp ++ d1) := by
  rintro ⟨sp2, d12, d22, heq, _, _, _, _, _, _⟩
  have hdot : '.' ∈ sp ++ d1 := by
    rw [heq]
    exact List.mem_append_right _ (List.mem_cons_self _ _)
  rcases List.mem_append.mp hdot with h1 | h1
  · exact absurd (hsp _ h1) (by decide)
  · exact absurd (hd1 _ h1) (by decide)

/-- Auxiliary: a strict match found by the strict scanner is also found by
the regex scanner, with the same parsed value. -/
theorem tryMatchStrict_to_CC {l : List Char} {q : ℚ}
    (h : tryMatchStrict l = some q) :
    ∃ m, tryMatchCC l = some m ∧ IsStrictCC m ∧
      parsePyFloat (removeSpaces m) = some q := by
  rw [tryMatchStrict] at h
  by_cases hsp : ccSpaces l = []
  · rw [if_pos hsp] at h
    cases h
  · rw [if_neg hsp] at h
    by_cases hd1 : ccDigits1 l = []
    · rw [if_pos hd1] at h
      cases h
    · rw [if_neg hd1] at h
      rcases hscrut : ccAfterDigits l with _ | ⟨c, r2⟩
      · rw [hscrut] at h
        cases h
      · rw [hscrut] at h
        dsimp only at h
        by_cases hdot : c = '.'
        · rw [if_pos hdot] at h
          by_cases hd2 : r2.takeWhile isDigitCh = []
          · rw [if_pos hd2] at h
            cases h
          · rw [if_neg hd2] at h
            injection h with hq
            subst hdot
            have htkdig : ∀ x ∈ r2.takeWhile isDigitCh, isDigitCh x = true :=
              fun _ hx => List.mem_takeWhile_imp hx
            refine ⟨ccSpaces l ++ ccDigits1 l ++ '.' :: r2.takeWhile isDigitCh,
              ?_, ?_, ?_⟩
            · rw [tryMatchCC, if_neg hsp, if_neg hd1, hscrut]
              dsimp only
              rw [if_pos ⟨by decide, headIsDigit_of_takeWhile_ne hd2⟩]
            · exact ⟨_, _, _, rfl, hsp, ccSpaces_spaces l, hd1,
                ccDigits1_digits l, hd2, htkdig⟩
            · rw [parse_strict_shape _ _ _ (ccSpaces_spaces l) hd1
                (ccDigits1_digits l) hd2 htkdig, hq]
        · rw [if_neg hdot] at h
          cases h

/-- Auxiliary: a regex match of the strict spaces-decimal shape is found
by the strict scanner too, with the same parsed value. -/
theorem tryMatchCC_strict {l m : List Char}
    (h : tryMatchCC l = some m) (hs : IsStrictCC m) :
    ∃ q, tryMatchStrict l = some q ∧
      parsePyFloat (removeSpaces m) = some q := by
  rw [tryMatchCC] at h
  by_cases hsp : ccSpaces l = []
  · rw [if_pos hsp] at h
    cases h
  · rw [if_neg hsp] at h
    by_cases hd1 : ccDigits1 l = []
    · rw [if_pos hd1] at h
      cases h
    · rw [if_neg hd1] at h
      rcases hscrut : ccAfterDigits l with _ | ⟨c, r2⟩
      · rw [hscrut] at h
        dsimp only at h
        by_cases h3 : 3 ≤ (ccDigits1 l).length
        · rw [if_pos h3] at h
          injection h with hm
          subst hm
          exact absurd hs (not_strict_spaces_digits (ccSpaces_spaces l)
            (ccDigits1_digits l))
        · rw [if_neg h3] at h
          cases h
      · rw [hscrut] at h
        dsimp only at h
        by_cases hcnd : (c ≠ '\n' ∧ headIsDigit r2 = true)
        · rw [if_pos hcnd] at h
          injection h with hm
          obtain ⟨sp2, d12, d22, hmeq, hsp2ne, hsp2, hd12ne, hd12,
            hd22ne, hd22⟩ := hs
          rw [← hm] at hmeq
          have hcnotdig : isDigitCh c = false :=
            ccAfterDigits_head_not_digit hscrut
          have htkdig : ∀ x ∈ r2.takeWhile isDigitCh, isDigitCh x = true :=
            fun _ hx => List.mem_takeWhile_imp hx
          -- align the space runs
          have hswL : (ccSpaces l ++ (ccDigits1 l ++ c ::
              r2.takeWhile isDigitCh)).takeWhile (fun x => x == ' ')
              = ccSpaces l := by
            refine takeWhile_unique ?_ ?_
            · intro x hx
              have := ccSpaces_spaces l x hx
              simpa using this
            · exact takeWhile_space_nil_of_digits hd1 (ccDigits1_digits l)
          have hswR : (sp2 ++ (d12 ++ '.' :: d22)).takeWhile
              (fun x => x == ' ') = sp2 := by
            refine takeWhile_unique ?_ ?_
            · intro x hx
              have := hsp2 x hx
              simpa using this
            · exact takeWhile_space_nil_of_digits hd12ne hd12
          rw [List.append_assoc, List.append_assoc] at hmeq
          have hspeq : ccSpaces l = sp2 := by
            rw [← hswL, ← hswR, hmeq]
          have hrest1 : ccDigits1 l ++ c :: r2.takeWhile isDigitCh
              = d12 ++ '.' :: d22 := by
            rw [hspeq] at hmeq
            exact List.append_cancel_left hmeq
          -- align the digit runs
          have hdwL : (ccDigits1 l ++ c :: r2.takeWhile isDigitCh).takeWhile
              isDigitCh = ccDigits1 l := by
            refine takeWhile_unique (ccDigits1_digits l) ?_
            rw [List.takeWhile_cons_of_neg (by simpa using hcnotdig)]
          have hdwR : (d12 ++ '.' :: d22).takeWhile isDigitCh = d12 := by
            refine takeWhile_unique hd12 ?_
            rw [List.takeWhile_cons_of_neg (by decide)]
          have hdeq : ccDigits1 l = d12 := by
            rw [← hdwL, ← hdwR, hrest1]
          have hrest2 : c :: r2.takeWhile isDigitCh = '.' :: d22 := by
            rw [hdeq] at hrest1
            exact List.append_cancel_left hrest1
          injection hrest2 with hc2 htk2
          subst hc2
          have hd2ne : r2.takeWhile isDigitCh ≠ [] :=
            takeWhile_digit_ne_nil hcnd.2
          refine ⟨(natOfDigits (ccDigits1 l) : ℚ)
            + natOfDigits (r2.takeWhile isDigitCh)
              / 10 ^ (r2.takeWhile isDigitCh).length, ?_, ?_⟩
          · rw [tryMatchStrict, if_neg hsp, if_neg hd1, hscrut]
            dsimp only
            rw [if_pos rfl, if_neg hd2ne]
          · rw [← hm]
            exact parse_strict_shape _ _ _ (ccSpaces_spaces l) hd1
              (ccDigits1_digits l) hd2ne htkdig
        · rw [if_neg hcnd] at h
          by_cases h3 : 3 ≤ (ccDigits1 l).length
          · rw [if_pos h3] at h
            injection h with hm
            subst hm
            exact absurd hs (not_strict_spaces_digits (ccSpaces_spaces l)
              (ccDigits1_digits l))
          · rw [if_neg h3] at h
            cases h

/-- Auxiliary: where the regex finds nothing, neither does the strict
spaces-decimal reading. -/
theorem tryMatchStrict_none_of_CC_none {u : List Char}
    (h : tryMatchCC u = none) : tryMatchStrict u = none := by
  rcases hq : tryMatchStrict u with _ | q
  · rfl
  · obtain ⟨m, hm, _, _⟩ := tryMatchStrict_to_CC hq
    rw [h] at hm
    cases hm

/-- Auxiliary: a text with no regex match holds no spaces-decimal
occurrence of the claim's pattern either. -/
theorem firstCC_none_claim (l : List Char) (h : firstCC l = none) :
    claimFirstCC l = none := by
  induction l with
  | nil => rw [claimFirstCC]
  | cons x rest ih =>
    rw [firstCC] at h
    rw [claimFirstCC]
    by_cases hph : phraseWithCC (x :: rest)
    · rw [if_pos hph] at h ⊢
      rcases htm : tryMatchCC ((x :: rest).drop 7) with _ | m
      · rw [htm] at h
        dsimp only at h
        rw [tryMatchStrict_none_of_CC_none htm]
        exact ih h
      · rw [htm] at h
        dsimp only at h
        cases h
    · rw [if_neg hph] at h ⊢
      exact ih h

/-- Auxiliary: a first regex match of the strict shape is also the
claim's first spaces-decimal occurrence, and its parse succeeds with the
same value. -/
theorem firstCC_strict_claim (l : List Char) :
    ∀ m, firstCC l = some m → IsStrictCC m →
      ∃ q, parsePyFloat (removeSpaces m) = some q ∧
        claimFirstCC l = some q := by
  induction l with
  | nil =>
    intro m hm
    rw [firstCC] at hm
    cases hm
  | cons x rest ih =>
    intro m hm hs
    rw [firstCC] at hm
    rw [claimFirstCC]
    by_cases hph : phraseWithCC (x :: rest)
    · rw [if_pos hph] at hm ⊢
      rcases htm : tryMatchCC ((x :: rest).drop 7) with _ | m0
      · rw [htm] at hm
        dsimp only at hm
        rw [tryMatchStrict_none_of_CC_none htm]
        dsimp only
        exact ih m hm hs
      · rw [htm] at hm
        dsimp only at hm
        injection hm with hm0
        subst hm0
        obtain ⟨q, hq1, hq2⟩ := tryMatchCC_strict htm hs
        rw [hq1]
        exact ⟨q, hq2, rfl⟩
    · rw [if_neg hph] at hm ⊢
      exact ih m hm hs

/-- Counterexample to C8 as stated: the text
`with CC 1x1 with CC 2.5` contains an occurrence of `with CC` followed by
spaces and the decimal number `2.5`, yet `get_cc` raises instead of
returning `2.5` — the regex's first match is ` 1x1` (the wildcard `.`
matched `x`), `float("1x1")` raises `ValueError`, the handler only logs,
and the final `return cc` raises `NameError`. -/
theorem get_cc_poisoned_match_counterexample :
    claimFirstCC ("with CC 1x1 with CC 2.5".toList) = some (5/2) ∧
    get_cc (some ("with CC 1x1 with CC 2.5".toList)) = Except.error () := by
  constructor
  · have h1 : claimFirstCC ("with CC 1x1 with CC 2.5".toList)
        = some (((2 : ℕ) : ℚ) + ((5 : ℕ) : ℚ) / 10 ^ 1) := rfl
    rw [h1]
    norm_num
  · rfl

/-- C8 (amended: `get_cc` returns, as a float, the space-stripped first
regex match of `with CC` followed by spaces, digits, any character and
digits — whenever that string parses as a float; it raises when no file
exists, when no match exists, or when the first match fails to parse.  In
particular, when the first match has the claimed shape of spaces followed
by a decimal number, the value returned is exactly the first
`with CC`-spaces-decimal-number occurrence of the text). -/
theorem get_cc_spec (text : List Char) :
    get_cc none = Except.error () ∧
    (firstCC text = none →
      get_cc (some text) = Except.error () ∧ claimFirstCC text = none) ∧
    ∀ m, firstCC text = some m →
      (parsePyFloat (removeSpaces m) = none →
        get_cc (some text) = Except.error ()) ∧
      (∀ q, parsePyFloat (removeSpaces m) = some q →
        get_cc (some text) = Except.ok q) ∧
      (IsStrictCC m →
        ∃ q, get_cc (some text) = Except.ok q ∧
          claimFirstCC text = some q) := by
  refine ⟨rfl, ?_, ?_⟩
  · intro h
    refine ⟨?_, firstCC_none_claim text h⟩
    rw [get_cc, h]
  · intro m hm
    refine ⟨?_, ?_, ?_⟩
    · intro hp
      rw [get_cc, hm]
      dsimp only
      rw [hp]
    · intro q hq
      rw [get_cc, hm]
      dsimp only
      rw [hq]
    · intro hs
      obtain ⟨q, hq1, hq2⟩ := firstCC_strict_claim text m hm hs
      refine ⟨q, ?_, hq2⟩
      rw [get_cc, hm]
      dsimp only
      rw [hq1]

/-- Witness for C8's amended theorem on the text `with CC 12.34`. -/
theorem get_cc_spec_witness :
    ∃ q, get_cc (some ("with CC 12.34".toList)) = Except.ok q ∧
      claimFirstCC ("with CC 12.34".toList) = some q := by
  have h := get_cc_spec ("with CC 12.34".toList)
  refine (h.2.2 (" 12.34".toList) (by decide)).2.2 ?_
  exact ⟨[' '], ['1', '2'], ['3', '4'], by decide, by decide, by decide,
    by decide, by decide, by decide, by decide⟩

/-- Witness for C9's amended theorem: three files, a 50% split. -/
theorem test_split_deterministic_sample_witness :
    test_split 0 ["a", "b", "c"] 50 = test_split 7 ["a", "b", "c"] 50 ∧
    (∃ r, test_split 0 ["a", "b", "c"] 50 = some r ∧
      r.length = (pyInt ((["a", "b", "c"].length : ℚ) * (50 / 100))).toNat ∧
      r.Nodup ∧ ∀ x ∈ r, x ∈ ["a", "b", "c"]) ∧
    ∀ p : ℚ, pyInt ((["a", "b", "c"].length : ℚ) * (p / 100)) = 0 →
      test_split 0 ["a", "b", "c"] p = none :=
  test_split_deterministic_sample ["a", "b", "c"] 50 0 7
    (by decide) (by norm_num [pyInt]) (by norm_num [pyInt])

end Topaz3
